import Mathlib

/-!
Verification development for the GTIRB library (GrammaTech Intermediate
Representation for Binaries).  The definitions below shallowly embed the
data model and operations of the sources: the C++ headers
`gtirb/Module.hpp` and `gtirb/CodeBlock.hpp`, the Java
`com.grammatech.gtirb.variant.Variant11` class, and — where the
implementation is present only as tests or declarations — models built
from the specification of the wire envelope and the AuxData codec.
Machine integers are modelled as `Nat`/`Int`; bytes are `Nat` values
with explicit `< 256` side conditions; fallible operations return
`Option` or `Except`.
-/

namespace Gtirb

/-! ## Variant11 (Java `com.grammatech.gtirb.variant.Variant11`)

The Java class stores a single `Object` together with a zero-based
`index` recording which of the eleven generic fields is populated.  The
constructors (`Variant11(Token.Tk, o)`) and the setters (`setk`) are the
only operations establishing a state, and each sets `index := k` and
`o := o` together, so the reachable states are exactly captured by an
inductive with eleven constructors. -/

inductive Variant11 (A B C D E F G H I J K : Type) where
  | t0 (a : A)
  | t1 (b : B)
  | t2 (c : C)
  | t3 (d : D)
  | t4 (e : E)
  | t5 (f : F)
  | t6 (g : G)
  | t7 (h : H)
  | t8 (i : I)
  | t9 (j : J)
  | t10 (k : K)

namespace Variant11

variable {A B C D E F G H I J K : Type}

/-- Zero-based index of the populated field, as in `Variant11.getIndex`. -/
def getIndex : Variant11 A B C D E F G H I J K → Nat
  | .t0 _ => 0
  | .t1 _ => 1
  | .t2 _ => 2
  | .t3 _ => 3
  | .t4 _ => 4
  | .t5 _ => 5
  | .t6 _ => 6
  | .t7 _ => 7
  | .t8 _ => 8
  | .t9 _ => 9
  | .t10 _ => 10

def get0 : Variant11 A B C D E F G H I J K → Option A
  | .t0 a => some a
  | _ => none

def get1 : Variant11 A B C D E F G H I J K → Option B
  | .t1 b => some b
  | _ => none

def get2 : Variant11 A B C D E F G H I J K → Option C
  | .t2 c => some c
  | _ => none

def get3 : Variant11 A B C D E F G H I J K → Option D
  | .t3 d => some d
  | _ => none

def get4 : Variant11 A B C D E F G H I J K → Option E
  | .t4 e => some e
  | _ => none

def get5 : Variant11 A B C D E F G H I J K → Option F
  | .t5 f => some f
  | _ => none

def get6 : Variant11 A B C D E F G H I J K → Option G
  | .t6 g => some g
  | _ => none

def get7 : Variant11 A B C D E F G H I J K → Option H
  | .t7 h => some h
  | _ => none

def get8 : Variant11 A B C D E F G H I J K → Option I
  | .t8 i => some i
  | _ => none

def get9 : Variant11 A B C D E F G H I J K → Option J
  | .t9 j => some j
  | _ => none

def get10 : Variant11 A B C D E F G H I J K → Option K
  | .t10 k => some k
  | _ => none

/-- Setter for field 0: any previously populated field is dropped. -/
def set0 (_ : Variant11 A B C D E F G H I J K) (o : A) : Variant11 A B C D E F G H I J K := .t0 o

def set1 (_ : Variant11 A B C D E F G H I J K) (o : B) : Variant11 A B C D E F G H I J K := .t1 o

def set2 (_ : Variant11 A B C D E F G H I J K) (o : C) : Variant11 A B C D E F G H I J K := .t2 o

def set3 (_ : Variant11 A B C D E F G H I J K) (o : D) : Variant11 A B C D E F G H I J K := .t3 o

def set4 (_ : Variant11 A B C D E F G H I J K) (o : E) : Variant11 A B C D E F G H I J K := .t4 o

def set5 (_ : Variant11 A B C D E F G H I J K) (o : F) : Variant11 A B C D E F G H I J K := .t5 o

def set6 (_ : Variant11 A B C D E F G H I J K) (o : G) : Variant11 A B C D E F G H I J K := .t6 o

def set7 (_ : Variant11 A B C D E F G H I J K) (o : H) : Variant11 A B C D E F G H I J K := .t7 o

def set8 (_ : Variant11 A B C D E F G H I J K) (o : I) : Variant11 A B C D E F G H I J K := .t8 o

def set9 (_ : Variant11 A B C D E F G H I J K) (o : J) : Variant11 A B C D E F G H I J K := .t9 o

def set10 (_ : Variant11 A B C D E F G H I J K) (o : K) : Variant11 A B C D E F G H I J K := .t10 o

end Variant11

/-! ## CodeBlock::setSize (C++ `gtirb/CodeBlock.hpp`)

The C++ method swaps the new size into the member variable first and
only then calls `Observer->sizeChange(this, OldSize, NewSize)`; without
an observer it assigns directly.  The observer call is modelled as an
emitted event recording the block's size as seen by the observer at
callback time together with the `(old, new)` arguments. -/

structure CodeBlockState where
  size : Nat
  hasObserver : Bool

structure SizeChangeEvent where
  sizeAtCallback : Nat
  oldSize : Nat
  newSize : Nat

namespace CodeBlockState

/-- Model of `CodeBlock::setSize`: with an observer installed the size
is committed (by `std::swap`) before `sizeChange` is invoked with the
old and new values; without one the size is simply assigned. -/
def setSize (b : CodeBlockState) (s : Nat) : CodeBlockState × List SizeChangeEvent :=
  if b.hasObserver then
    let b2 : CodeBlockState := { b with size := s }
    (b2, [{ sizeAtCallback := b2.size, oldSize := b.size, newSize := s }])
  else ({ b with size := s }, [])

end CodeBlockState

/-! ## Symbol containment and parent back-references (C++ `gtirb/Module.hpp`)

`Module::addSymbol` first removes the symbol from its previous module
(if any), then inserts it into this module's `Symbols` container (a
multi-index whose `by_pointer` index is `hashed_unique`, so a duplicate
insert is a no-op) and sets the parent pointer.  `Module::removeSymbol`
erases the symbol when present, nulls its parent, and returns `true`;
otherwise it returns `false` and changes nothing.  Modules and symbols
are identified by `Nat` handles; `contains m` is module `m`'s symbol
collection and `parentOf s` is symbol `s`'s parent pointer. -/

structure SymStore where
  contains : Nat → List Nat
  parentOf : Nat → Option Nat

/-- Pointwise update of a function used to model field assignment. -/
def updFn {β : Type} (f : Nat → β) (k : Nat) (v : β) : Nat → β :=
  fun k2 => if k2 = k then v else f k2

namespace SymStore

/-- Model of `Module::removeSymbol`: erase the symbol from the
container and null its parent when present (returning `true`),
otherwise return `false` leaving everything unchanged. -/
def removeSymbol (st : SymStore) (m s : Nat) : SymStore × Bool :=
  if s ∈ st.contains m then
    ({ contains := updFn st.contains m ((st.contains m).erase s),
       parentOf := updFn st.parentOf s none }, true)
  else (st, false)

/-- Insertion step of `Module::addSymbol`: `Symbols.emplace(S)` (no-op
when already present, matching the `hashed_unique` by-pointer index)
followed by `S->setParent(this, ...)`. -/
def insertHere (st1 : SymStore) (m s : Nat) : SymStore :=
  { contains := updFn st1.contains m
      (if s ∈ st1.contains m then st1.contains m else s :: st1.contains m),
    parentOf := updFn st1.parentOf s (some m) }

/-- Model of `Module::addSymbol`: remove the symbol from its previous
module if it has one, then insert it here and point its parent at `m`. -/
def addSymbol (st : SymStore) (m s : Nat) : SymStore :=
  insertHere
    (match st.parentOf s with
      | some m0 => (st.removeSymbol m0 s).1
      | none => st) m s

/-- Parent back-reference consistency: a symbol's parent pointer equals
exactly the module whose collection lists it, and each collection is
duplicate-free (it models a set). -/
def Consistent (st : SymStore) : Prop :=
  (∀ s m, st.parentOf s = some m ↔ s ∈ st.contains m) ∧ ∀ m, (st.contains m).Nodup

/-- Removing a contained symbol succeeds, preserves consistency, nulls
the parent pointer and detaches the symbol from every collection. -/
theorem removeSymbol_mem_spec (st : SymStore) (m s : Nat)
    (hiff : ∀ s2 m2, st.parentOf s2 = some m2 ↔ s2 ∈ st.contains m2)
    (hnd : ∀ m2, (st.contains m2).Nodup)
    (hmem : s ∈ st.contains m) :
    (st.removeSymbol m s).2 = true ∧
    (∀ s2 m2, (st.removeSymbol m s).1.parentOf s2 = some m2 ↔
      s2 ∈ (st.removeSymbol m s).1.contains m2) ∧
    (∀ m2, ((st.removeSymbol m s).1.contains m2).Nodup) ∧
    (st.removeSymbol m s).1.parentOf s = none ∧
    ∀ m2, s ∉ (st.removeSymbol m s).1.contains m2 := by
  have hpar : st.parentOf s = some m := (hiff s m).mpr hmem
  have hstep : st.removeSymbol m s =
      ({ contains := updFn st.contains m ((st.contains m).erase s),
         parentOf := updFn st.parentOf s none }, true) := by
    unfold SymStore.removeSymbol
    rw [if_pos hmem]
  rw [hstep]
  refine ⟨rfl, ?_, ?_, ?_, ?_⟩
  · intro s2 m2
    simp only [updFn]
    by_cases hs2 : s2 = s
    · rw [if_pos hs2]
      constructor
      · intro h; exact Option.noConfusion h
      · intro h
        by_cases hm2 : m2 = m
        · rw [if_pos hm2, hs2] at h
          exact absurd h ((hnd m).not_mem_erase)
        · rw [if_neg hm2, hs2] at h
          have h2 := (hiff s m2).mpr h
          rw [hpar] at h2
          exact absurd (Option.some.inj h2).symm hm2
    · rw [if_neg hs2]
      by_cases hm2 : m2 = m
      · rw [if_pos hm2, hm2, List.mem_erase_of_ne hs2]
        exact hiff s2 m
      · rw [if_neg hm2]; exact hiff s2 m2
  · intro m2
    simp only [updFn]
    by_cases hm2 : m2 = m
    · rw [if_pos hm2]; exact (hnd m).erase s
    · rw [if_neg hm2]; exact hnd m2
  · simp [updFn]
  · intro m2
    simp only [updFn]
    by_cases hm2 : m2 = m
    · rw [if_pos hm2]; exact (hnd m).not_mem_erase
    · rw [if_neg hm2]
      intro h
      have h2 := (hiff s m2).mpr h
      rw [hpar] at h2
      exact hm2 (Option.some.inj h2).symm

/-- Inserting a symbol that no collection currently lists yields a
consistent store listing it exactly in `m` with its parent set to `m`. -/
theorem insertHere_spec (st1 : SymStore) (m s : Nat)
    (hiff1 : ∀ s2 m2, st1.parentOf s2 = some m2 ↔ s2 ∈ st1.contains m2)
    (hnd1 : ∀ m2, (st1.contains m2).Nodup)
    (hnot1 : ∀ m2, s ∉ st1.contains m2) :
    (st1.insertHere m s).Consistent ∧
    (st1.insertHere m s).parentOf s = some m ∧
    s ∈ (st1.insertHere m s).contains m := by
  have hins : (if s ∈ st1.contains m then st1.contains m else s :: st1.contains m) =
      s :: st1.contains m := if_neg (hnot1 m)
  have hstep : st1.insertHere m s =
      { contains := updFn st1.contains m (s :: st1.contains m),
        parentOf := updFn st1.parentOf s (some m) } := by
    unfold SymStore.insertHere
    rw [hins]
  rw [hstep]
  refine ⟨⟨?_, ?_⟩, ?_, ?_⟩
  · intro s2 m2
    simp only [updFn]
    by_cases hs2 : s2 = s
    · rw [if_pos hs2]
      by_cases hm2 : m2 = m
      · rw [if_pos hm2, hs2]
        simp [hm2]
      · rw [if_neg hm2]
        constructor
        · intro h; exact absurd (Option.some.inj h).symm hm2
        · intro h; rw [hs2] at h; exact absurd h (hnot1 m2)
    · rw [if_neg hs2]
      by_cases hm2 : m2 = m
      · rw [if_pos hm2, hm2, List.mem_cons]
        constructor
        · intro h; exact Or.inr ((hiff1 s2 m).mp h)
        · intro h
          rcases h with h | h
          · exact absurd h hs2
          · exact (hiff1 s2 m).mpr h
      · rw [if_neg hm2]; exact hiff1 s2 m2
  · intro m2
    simp only [updFn]
    by_cases hm2 : m2 = m
    · rw [if_pos hm2]
      exact List.nodup_cons.mpr ⟨hnot1 m, hnd1 m⟩
    · rw [if_neg hm2]; exact hnd1 m2
  · simp [updFn]
  · simp [updFn]

end SymStore

/-! ## ProxyBlock removal (contract of `Module::removeProxyBlock`)

Modelled from the spec: the implementation of `Module::removeProxyBlock`
lives in `Module.cpp`, which is not among the sources; the declaration's
documentation in `Module.hpp` states the contract: the result is the
tri-state `ChangeStatus`, and "if the node to remove is not actually
part of this node to begin with, the result will be `NoChange`". -/

inductive ChangeStatus where
  | accepted
  | noChange
  | rejected
deriving DecidableEq

structure ProxyStore where
  blocks : Nat → List Nat
  parentOf : Nat → Option Nat

namespace ProxyStore

/-- Modelled from the spec: `Module::removeProxyBlock` removes a
contained block (clearing its parent) and reports `Accepted`; removing
an absent block reports `NoChange` and alters nothing. -/
def removeProxyBlock (st : ProxyStore) (m b : Nat) : ProxyStore × ChangeStatus :=
  if b ∈ st.blocks m then
    ({ blocks := updFn st.blocks m ((st.blocks m).erase b),
       parentOf := updFn st.parentOf b none }, .accepted)
  else (st, .noChange)

end ProxyStore

/-! ## Ordered multi-indices (boost `multi_index` ordered_non_unique)

A boost ordered index keeps the container's elements sorted by a key
(ties in unspecified order).  `equal_range(n)` returns the contiguous
run `[lower_bound(n), upper_bound(n))` and `lower_bound` is the first
position whose key is not less than the probe.  The index is modelled
as an insertion-sorted copy of the element list; `lower_bound` becomes
`dropWhile (key < probe)` and the upper limits become `takeWhile`. -/

/-- Ordered insert: the element is placed before the first strictly
greater element, i.e. at the upper bound of its equal range, as a boost
ordered_non_unique index does. -/
def insSorted {α : Type} (lt : α → α → Bool) (x : α) : List α → List α
  | [] => [x]
  | y :: ys => if lt x y then x :: y :: ys else y :: insSorted lt x ys

/-- Sorted copy of a list, modelling the ordered index built by
inserting each element of the primary collection. -/
def sortByKey {α : Type} (lt : α → α → Bool) (l : List α) : List α :=
  l.foldr (insSorted lt) []

theorem perm_insSorted {α : Type} (lt : α → α → Bool) (x : α) :
    ∀ l : List α, (insSorted lt x l).Perm (x :: l) := by
  intro l
  induction l with
  | nil => exact List.Perm.refl _
  | cons y ys ih =>
    rw [insSorted]
    by_cases h : lt x y = true
    · rw [if_pos h]
    · rw [if_neg h]
      exact (List.Perm.cons y ih).trans (List.Perm.swap x y ys)

theorem perm_sortByKey {α : Type} (lt : α → α → Bool) :
    ∀ l : List α, (sortByKey lt l).Perm l := by
  intro l
  induction l with
  | nil => exact List.Perm.refl _
  | cons y ys ih =>
    exact (perm_insSorted lt y (sortByKey lt ys)).trans (List.Perm.cons y ih)

theorem pairwise_insSorted {α : Type} (lt : α → α → Bool)
    (hasym : ∀ a b, lt a b = true → lt b a = false)
    (htr : ∀ a b c, lt a b = true → lt b c = true → lt a c = true) (x : α) :
    ∀ l : List α, l.Pairwise (fun a b => lt b a = false) →
      (insSorted lt x l).Pairwise (fun a b => lt b a = false) := by
  intro l
  induction l with
  | nil => intro _; exact List.pairwise_singleton _ x
  | cons y ys ih =>
    intro hp
    rw [List.pairwise_cons] at hp
    obtain ⟨hy, hys⟩ := hp
    rw [insSorted]
    by_cases h : lt x y = true
    · rw [if_pos h]
      rw [List.pairwise_cons]
      constructor
      · intro z hz
        rcases List.mem_cons.mp hz with hz | hz
        · rw [hz]; exact hasym x y h
        · by_contra hzx
          have hzx2 : lt z x = true := by
            cases h2 : lt z x
            · exact absurd h2 hzx
            · rfl
          have := htr z x y hzx2 h
          rw [hy z hz] at this
          exact Bool.noConfusion this
      · rw [List.pairwise_cons]; exact ⟨hy, hys⟩
    · rw [if_neg h]
      rw [List.pairwise_cons]
      constructor
      · intro z hz
        have hz2 : z ∈ x :: ys := (perm_insSorted lt x ys).mem_iff.mp hz
        rcases List.mem_cons.mp hz2 with hz2 | hz2
        · rw [hz2]
          cases h2 : lt x y
          · rfl
          · exact absurd h2 h
        · exact hy z hz2
      · exact ih hys

theorem pairwise_sortByKey {α : Type} (lt : α → α → Bool)
    (hasym : ∀ a b, lt a b = true → lt b a = false)
    (htr : ∀ a b c, lt a b = true → lt b c = true → lt a c = true) :
    ∀ l : List α, (sortByKey lt l).Pairwise (fun a b => lt b a = false) := by
  intro l
  induction l with
  | nil => exact List.Pairwise.nil
  | cons y ys ih => exact pairwise_insSorted lt hasym htr y (sortByKey lt ys) ih

/-! Slices of sorted lists.  `sliceRun` characterises `equal_range`
(elements neither below nor above the probe) and `sliceBetween`
characterises `[lower_bound lo, lower_bound hi)`: both equal a filter
of the sorted list. -/

theorem takeWhile_filter_of_not_below {α κ : Type} (key : α → κ) (kLt : κ → κ → Bool)
    (htr : ∀ a b c, kLt a b = true → kLt b c = true → kLt a c = true)
    (htri : ∀ a b, kLt a b = true ∨ a = b ∨ kLt b a = true) (n : κ) :
    ∀ l : List α, l.Pairwise (fun a b => kLt (key b) (key a) = false) →
      (∀ z ∈ l, kLt (key z) n = false) →
      l.takeWhile (fun x => !kLt n (key x)) =
      l.filter (fun x => !kLt (key x) n && !kLt n (key x)) := by
  intro l
  induction l with
  | nil => intro _ _; rfl
  | cons y ys ih =>
    intro hp hall
    rw [List.pairwise_cons] at hp
    obtain ⟨hy, hys⟩ := hp
    have hyn : kLt (key y) n = false := hall y (List.mem_cons_self y ys)
    rw [List.takeWhile_cons, List.filter_cons]
    by_cases h2 : kLt n (key y) = true
    · simp only [h2, hyn, Bool.not_true, Bool.not_false, Bool.true_and, Bool.and_false]
      rw [if_neg (by simp), if_neg (by simp)]
      symm
      rw [List.filter_eq_nil_iff]
      intro z hz
      have hzy : kLt (key z) (key y) = false := hy z hz
      rcases htri n (key z) with hcase | hcase | hcase
      · simp [hcase]
      · rw [hcase] at h2
        rw [hzy] at h2
        exact Bool.noConfusion h2
      · simp [hcase]
    · have h2f : kLt n (key y) = false := by
        cases h3 : kLt n (key y)
        · rfl
        · exact absurd h3 h2
      simp only [h2f, hyn, Bool.not_false, Bool.true_and, Bool.and_self]
      rw [if_pos trivial, if_pos trivial]
      have hrec := ih hys (fun z hz => hall z (List.mem_cons_of_mem y hz))
      rw [hrec]

/-- Characterisation of `equal_range(n)` on an ordered index: the run
from `lower_bound(n)` to `upper_bound(n)` contains exactly the elements
whose key is neither below nor above `n`. -/
theorem sliceRun_eq_filter {α κ : Type} (key : α → κ) (kLt : κ → κ → Bool)
    (htr : ∀ a b c, kLt a b = true → kLt b c = true → kLt a c = true)
    (htri : ∀ a b, kLt a b = true ∨ a = b ∨ kLt b a = true) (n : κ) :
    ∀ l : List α, l.Pairwise (fun a b => kLt (key b) (key a) = false) →
      (l.dropWhile (fun x => kLt (key x) n)).takeWhile (fun x => !kLt n (key x)) =
      l.filter (fun x => !kLt (key x) n && !kLt n (key x)) := by
  intro l
  induction l with
  | nil => intro _; rfl
  | cons y ys ih =>
    intro hp
    rw [List.pairwise_cons] at hp
    obtain ⟨hy, hys⟩ := hp
    rw [List.dropWhile_cons, List.filter_cons]
    by_cases h1 : kLt (key y) n = true
    · simp only [h1, Bool.not_true, Bool.false_and, if_pos trivial]
      rw [if_neg (by simp)]
      exact ih hys
    · have h1f : kLt (key y) n = false := by
        cases h3 : kLt (key y) n
        · rfl
        · exact absurd h3 h1
      simp only [h1f]
      rw [if_neg (by simp)]
      have hall : ∀ z ∈ y :: ys, kLt (key z) n = false := by
        intro z hz
        rcases List.mem_cons.mp hz with hz | hz
        · rw [hz]; exact h1f
        · cases hzn : kLt (key z) n
          · rfl
          · rcases htri (key y) n with hcase | hcase | hcase
            · rw [hcase] at h1f; exact Bool.noConfusion h1f
            · rw [← hcase] at hzn
              rw [hy z hz] at hzn
              exact Bool.noConfusion hzn
            · have := htr (key z) n (key y) hzn hcase
              rw [hy z hz] at this
              exact Bool.noConfusion this
      have := takeWhile_filter_of_not_below key kLt htr htri n (y :: ys)
        (List.pairwise_cons.mpr ⟨hy, hys⟩) hall
      rw [this, List.filter_cons, h1f]

/-- Companion to `takeWhile_filter_of_not_below` for address ranges:
once every key is at least `lo`, the elements up to the first key not
below `hi` are exactly those with key in the half-open range. -/
theorem takeWhile_filter_range {α κ : Type} (key : α → κ) (kLt : κ → κ → Bool)
    (htr : ∀ a b c, kLt a b = true → kLt b c = true → kLt a c = true)
    (htri : ∀ a b, kLt a b = true ∨ a = b ∨ kLt b a = true) (lo hi : κ) :
    ∀ l : List α, l.Pairwise (fun a b => kLt (key b) (key a) = false) →
      (∀ z ∈ l, kLt (key z) lo = false) →
      l.takeWhile (fun x => kLt (key x) hi) =
      l.filter (fun x => !kLt (key x) lo && kLt (key x) hi) := by
  intro l
  induction l with
  | nil => intro _ _; rfl
  | cons y ys ih =>
    intro hp hall
    rw [List.pairwise_cons] at hp
    obtain ⟨hy, hys⟩ := hp
    have hyn : kLt (key y) lo = false := hall y (List.mem_cons_self y ys)
    rw [List.takeWhile_cons, List.filter_cons]
    by_cases h2 : kLt (key y) hi = true
    · simp only [h2, hyn, Bool.not_false, Bool.true_and]
      rw [if_pos trivial, if_pos trivial]
      have hrec := ih hys (fun z hz => hall z (List.mem_cons_of_mem y hz))
      rw [hrec]
    · have h2f : kLt (key y) hi = false := by
        cases h3 : kLt (key y) hi
        · rfl
        · exact absurd h3 h2
      simp only [h2f, hyn, Bool.not_false, Bool.true_and, Bool.and_false]
      rw [if_neg (by simp), if_neg (by simp)]
      symm
      rw [List.filter_eq_nil_iff]
      intro z hz
      have hzy : kLt (key z) (key y) = false := hy z hz
      have hzh : kLt (key z) hi = false := by
        cases hcase : kLt (key z) hi
        · rfl
        · rcases htri hi (key y) with hd | hd | hd
          · have := htr (key z) hi (key y) hcase hd
            rw [hzy] at this
            exact Bool.noConfusion this
          · rw [hd] at hcase
            rw [hzy] at hcase
            exact Bool.noConfusion hcase
          · rw [hd] at h2f
            exact Bool.noConfusion h2f
      simp [hzh]

/-- Characterisation of the slice `[lower_bound(lo), lower_bound(hi))`
on an ordered index: it holds exactly the elements whose key is at
least `lo` and below `hi` — the half-open interval query. -/
theorem sliceBetween_eq_filter {α κ : Type} (key : α → κ) (kLt : κ → κ → Bool)
    (htr : ∀ a b c, kLt a b = true → kLt b c = true → kLt a c = true)
    (htri : ∀ a b, kLt a b = true ∨ a = b ∨ kLt b a = true) (lo hi : κ) :
    ∀ l : List α, l.Pairwise (fun a b => kLt (key b) (key a) = false) →
      (l.dropWhile (fun x => kLt (key x) lo)).takeWhile (fun x => kLt (key x) hi) =
      l.filter (fun x => !kLt (key x) lo && kLt (key x) hi) := by
  intro l
  induction l with
  | nil => intro _; rfl
  | cons y ys ih =>
    intro hp
    rw [List.pairwise_cons] at hp
    obtain ⟨hy, hys⟩ := hp
    rw [List.dropWhile_cons, List.filter_cons]
    by_cases h1 : kLt (key y) lo = true
    · simp only [h1, Bool.not_true, Bool.false_and, if_pos trivial]
      rw [if_neg (by simp)]
      exact ih hys
    · have h1f : kLt (key y) lo = false := by
        cases h3 : kLt (key y) lo
        · rfl
        · exact absurd h3 h1
      simp only [h1f]
      rw [if_neg (by simp)]
      have hall : ∀ z ∈ y :: ys, kLt (key z) lo = false := by
        intro z hz
        rcases List.mem_cons.mp hz with hz | hz
        · rw [hz]; exact h1f
        · cases hzn : kLt (key z) lo
          · rfl
          · rcases htri (key y) lo with hcase | hcase | hcase
            · rw [hcase] at h1f; exact Bool.noConfusion h1f
            · rw [← hcase] at hzn
              rw [hy z hz] at hzn
              exact Bool.noConfusion hzn
            · have := htr (key z) lo (key y) hzn hcase
              rw [hy z hz] at this
              exact Bool.noConfusion this
      have := takeWhile_filter_range key kLt htr htri lo hi (y :: ys)
        (List.pairwise_cons.mpr ⟨hy, hys⟩) hall
      rw [this, List.filter_cons, h1f]


/-! ## Module symbol queries (C++ `gtirb/Module.hpp`)

A `Symbol` carries a name (`Symbol::getName`) and an optional address
(`Symbol::getAddress`, of type `std::optional<Addr>`).  The Module's
`SymbolSet` has an ordered_non_unique by_name index keyed on the name
and an ordered_non_unique by_address index keyed on the optional
address, where `std::optional` comparison places `nullopt` strictly
before every engaged value.  `findSymbols(N)` is `equal_range(N)` on
the by_name index and `findSymbols(Lower, Upper)` is
`[lower_bound(Lower), lower_bound(Upper))` on the by_address index. -/

structure Symbol where
  name : String
  addr : Option Nat
deriving DecidableEq

/-- Lexicographic comparison of code-point lists.  On UTF-8 data this
agrees with the byte-wise std::less comparison used by the C++ ordered
by_name index (UTF-8 byte order coincides with code-point order). -/
def charListLt : List Char → List Char → Bool
  | _, [] => false
  | [], _ :: _ => true
  | a :: as, b :: bs =>
    decide (a.toNat < b.toNat) || (a.toNat == b.toNat && charListLt as bs)

/-- Strict comparison used by the ordered by_name index. -/
def strLt (a b : String) : Bool := charListLt a.data b.data

theorem uint32_toNat_inj (a b : UInt32) (h : a.toNat = b.toNat) : a = b := by
  cases a; cases b
  simp only [UInt32.toNat] at h
  congr 1
  exact BitVec.toNat_injective h

theorem charToNat_inj (a b : Char) (h : a.toNat = b.toNat) : a = b :=
  Char.eq_of_val_eq (uint32_toNat_inj a.val b.val h)

theorem charListLt_irrefl : ∀ l : List Char, charListLt l l = false := by
  intro l
  induction l with
  | nil => rfl
  | cons a as ih => simp [charListLt, ih]

theorem charListLt_asym : ∀ l1 l2 : List Char,
    charListLt l1 l2 = true → charListLt l2 l1 = false := by
  intro l1
  induction l1 with
  | nil =>
    intro l2 h
    cases l2 with
    | nil => exact absurd h (by simp [charListLt])
    | cons b bs => rfl
  | cons a as ih =>
    intro l2 h
    cases l2 with
    | nil => exact absurd h (by simp [charListLt])
    | cons b bs =>
      simp only [charListLt, Bool.or_eq_true, Bool.and_eq_true, decide_eq_true_eq,
        beq_iff_eq] at h
      show (decide (b.toNat < a.toNat) || (b.toNat == a.toNat && charListLt bs as)) = false
      rcases h with h | ⟨he, hr⟩
      · rw [decide_eq_false (by omega : ¬b.toNat < a.toNat),
          beq_eq_false_iff_ne.mpr (by omega : b.toNat ≠ a.toNat)]
        rfl
      · rw [decide_eq_false (by omega : ¬b.toNat < a.toNat), ih bs hr, Bool.and_false]
        rfl

theorem charListLt_trans : ∀ l1 l2 l3 : List Char,
    charListLt l1 l2 = true → charListLt l2 l3 = true → charListLt l1 l3 = true := by
  intro l1
  induction l1 with
  | nil =>
    intro l2 l3 h1 h2
    cases l2 with
    | nil => exact absurd h1 (by simp [charListLt])
    | cons b bs =>
      cases l3 with
      | nil => exact absurd h2 (by simp [charListLt])
      | cons c cs => rfl
  | cons a as ih =>
    intro l2 l3 h1 h2
    cases l2 with
    | nil => exact absurd h1 (by simp [charListLt])
    | cons b bs =>
      cases l3 with
      | nil => exact absurd h2 (by simp [charListLt])
      | cons c cs =>
        simp only [charListLt, Bool.or_eq_true, Bool.and_eq_true, decide_eq_true_eq,
          beq_iff_eq] at h1 h2
        show (decide (a.toNat < c.toNat) || (a.toNat == c.toNat && charListLt as cs)) = true
        rcases h1 with h1 | ⟨he1, hr1⟩
        · rcases h2 with h2 | ⟨he2, hr2⟩
          · rw [decide_eq_true (by omega : a.toNat < c.toNat), Bool.true_or]
          · rw [decide_eq_true (by omega : a.toNat < c.toNat), Bool.true_or]
        · rcases h2 with h2 | ⟨he2, hr2⟩
          · rw [decide_eq_true (by omega : a.toNat < c.toNat), Bool.true_or]
          · rw [beq_iff_eq.mpr (by omega : a.toNat = c.toNat), ih bs cs hr1 hr2,
              Bool.and_true, Bool.or_true]

theorem charListLt_tri : ∀ l1 l2 : List Char,
    charListLt l1 l2 = true ∨ l1 = l2 ∨ charListLt l2 l1 = true := by
  intro l1
  induction l1 with
  | nil =>
    intro l2
    cases l2 with
    | nil => exact Or.inr (Or.inl rfl)
    | cons b bs => exact Or.inl rfl
  | cons a as ih =>
    intro l2
    cases l2 with
    | nil => exact Or.inr (Or.inr rfl)
    | cons b bs =>
      rcases Nat.lt_trichotomy a.toNat b.toNat with h | h | h
      · refine Or.inl ?_
        show (decide (a.toNat < b.toNat) || (a.toNat == b.toNat && charListLt as bs)) = true
        rw [decide_eq_true h, Bool.true_or]
      · have hab : a = b := charToNat_inj a b h
        rcases ih bs with h2 | h2 | h2
        · refine Or.inl ?_
          show (decide (a.toNat < b.toNat) || (a.toNat == b.toNat && charListLt as bs)) = true
          rw [beq_iff_eq.mpr h, h2, Bool.and_true, Bool.or_true]
        · exact Or.inr (Or.inl (by rw [hab, h2]))
        · refine Or.inr (Or.inr ?_)
          show (decide (b.toNat < a.toNat) || (b.toNat == a.toNat && charListLt bs as)) = true
          rw [beq_iff_eq.mpr h.symm, h2, Bool.and_true, Bool.or_true]
      · refine Or.inr (Or.inr ?_)
        show (decide (b.toNat < a.toNat) || (b.toNat == a.toNat && charListLt bs as)) = true
        rw [decide_eq_true h, Bool.true_or]

theorem strLt_irrefl (a : String) : strLt a a = false := charListLt_irrefl a.data

/-- Strict comparison on optional address keys: an absent address
orders before every engaged value, engaged values compare by address,
exactly as the C++ `std::optional` comparison operators behave. -/
def optLt : Option Nat → Option Nat → Bool
  | none, some _ => true
  | some a, some b => decide (a < b)
  | _, none => false

theorem strLt_asym (a b : String) : strLt a b = true → strLt b a = false :=
  charListLt_asym a.data b.data

theorem strLt_trans (a b c : String) :
    strLt a b = true → strLt b c = true → strLt a c = true :=
  charListLt_trans a.data b.data c.data

theorem strLt_tri (a b : String) : strLt a b = true ∨ a = b ∨ strLt b a = true := by
  rcases charListLt_tri a.data b.data with h | h | h
  · exact Or.inl h
  · refine Or.inr (Or.inl ?_)
    cases a; cases b
    exact congrArg String.mk h
  · exact Or.inr (Or.inr h)

theorem optLt_asym (a b : Option Nat) : optLt a b = true → optLt b a = false := by
  cases a <;> cases b <;> intro h <;> simp_all [optLt] <;> omega

theorem optLt_trans (a b c : Option Nat) :
    optLt a b = true → optLt b c = true → optLt a c = true := by
  cases a <;> cases b <;> cases c <;> intro h1 h2 <;> simp_all [optLt] <;> omega

theorem optLt_tri (a b : Option Nat) : optLt a b = true ∨ a = b ∨ optLt b a = true := by
  cases a with
  | none =>
    cases b with
    | none => exact Or.inr (Or.inl rfl)
    | some vb => exact Or.inl rfl
  | some va =>
    cases b with
    | none => exact Or.inr (Or.inr rfl)
    | some vb =>
      rcases Nat.lt_trichotomy va vb with h | h | h
      · exact Or.inl (by simp [optLt, h])
      · exact Or.inr (Or.inl (by rw [h]))
      · exact Or.inr (Or.inr (by simp [optLt, h]))

/-- A Module's symbol table, modelled by its primary collection; the
ordered secondary indices are derived views. -/
structure Module where
  symbols : List Symbol

namespace Module

/-- The by_name ordered index of the SymbolSet. -/
def byNameIndex (m : Module) : List Symbol :=
  sortByKey (fun a b => strLt a.name b.name) m.symbols

/-- The by_address ordered index of the SymbolSet, keyed on the
optional address. -/
def byAddrIndex (m : Module) : List Symbol :=
  sortByKey (fun a b => optLt a.addr b.addr) m.symbols

/-- Model of `Module::findSymbols(const std::string&)`:
`equal_range(N)` on the by_name index. -/
def findSymbolsByName (m : Module) (n : String) : List Symbol :=
  ((m.byNameIndex).dropWhile fun s => strLt s.name n).takeWhile fun s => !strLt n s.name

/-- Model of `Module::findSymbols(Addr, Addr)`: the range from
`lower_bound(Lower)` to `lower_bound(Upper)` on the by_address index. -/
def findSymbolsBetween (m : Module) (lo hi : Nat) : List Symbol :=
  ((m.byAddrIndex).dropWhile fun s => optLt s.addr (some lo)).takeWhile
    fun s => optLt s.addr (some hi)

theorem byNameIndex_pairwise (m : Module) :
    (m.byNameIndex).Pairwise fun a b => strLt b.name a.name = false :=
  pairwise_sortByKey _
    (fun a b h => strLt_asym a.name b.name h)
    (fun a b c h1 h2 => strLt_trans a.name b.name c.name h1 h2) m.symbols

theorem byAddrIndex_pairwise (m : Module) :
    (m.byAddrIndex).Pairwise fun a b => optLt b.addr a.addr = false :=
  pairwise_sortByKey _
    (fun a b h => optLt_asym a.addr b.addr h)
    (fun a b c h1 h2 => optLt_trans a.addr b.addr c.addr h1 h2) m.symbols

/-- The by-name query returns, in index order, exactly the symbols of
the primary collection whose name equals the probe (up to the
unspecified order of equal keys). -/
theorem findSymbolsByName_perm (m : Module) (n : String) :
    (m.findSymbolsByName n).Perm (m.symbols.filter fun s => s.name == n) := by
  have hslice := sliceRun_eq_filter (fun s : Symbol => s.name) strLt strLt_trans strLt_tri n
    m.byNameIndex (m.byNameIndex_pairwise)
  have hpred : ∀ s : Symbol, (!strLt s.name n && !strLt n s.name) = (s.name == n) := by
    intro s
    rcases strLt_tri s.name n with h | h | h
    · have hne : s.name ≠ n := by
        intro he
        rw [he, strLt_irrefl n] at h
        exact Bool.noConfusion h
      rw [h, beq_eq_false_iff_ne.mpr hne, Bool.not_true, Bool.false_and]
    · rw [h, strLt_irrefl n, beq_self_eq_true]
      rfl
    · have hne : s.name ≠ n := by
        intro he
        rw [he, strLt_irrefl n] at h
        exact Bool.noConfusion h
      rw [h, beq_eq_false_iff_ne.mpr hne, Bool.not_true, Bool.and_false]
  have hfe : (m.byNameIndex.filter fun s => !strLt s.name n && !strLt n s.name) =
      m.byNameIndex.filter fun s => s.name == n :=
    List.filter_congr fun s _ => hpred s
  rw [Module.findSymbolsByName, hslice, hfe]
  exact (perm_sortByKey _ m.symbols).filter _

/-- The range query returns exactly the symbols whose address lies in
the half-open interval, up to the unspecified order of equal keys. -/
theorem findSymbolsBetween_perm (m : Module) (lo hi : Nat) :
    (m.findSymbolsBetween lo hi).Perm (m.symbols.filter fun s =>
      match s.addr with
      | some a => decide (lo ≤ a) && decide (a < hi)
      | none => false) := by
  have hslice := sliceBetween_eq_filter (fun s : Symbol => s.addr) optLt optLt_trans optLt_tri
    (some lo) (some hi) m.byAddrIndex (m.byAddrIndex_pairwise)
  have hpred : ∀ s : Symbol, (!optLt s.addr (some lo) && optLt s.addr (some hi)) =
      (match s.addr with
        | some a => decide (lo ≤ a) && decide (a < hi)
        | none => false) := by
    intro s
    cases ha : s.addr with
    | none => rfl
    | some a =>
      show (!decide (a < lo) && decide (a < hi)) = (decide (lo ≤ a) && decide (a < hi))
      have hnot : (!decide (a < lo)) = decide (lo ≤ a) := by
        by_cases h : a < lo
        · rw [show decide (a < lo) = true from decide_eq_true h,
            show decide (lo ≤ a) = false from decide_eq_false (by omega)]
          rfl
        · rw [show decide (a < lo) = false from decide_eq_false h,
            show decide (lo ≤ a) = true from decide_eq_true (by omega)]
          rfl
      rw [hnot]
  have hfe := List.filter_congr fun s (_ : s ∈ m.byAddrIndex) => hpred s
  rw [Module.findSymbolsBetween, hslice, hfe]
  exact (perm_sortByKey _ m.symbols).filter _

end Module


/-! ## Wire envelope and top-level codec (spec §4.8)

Modelled from the spec: the read/write implementation is present in the
sources only through its tests (src/cl/test.lisp round-trips,
src/java/tests/TestIrSanity.java failure cases), so the on-disk layout
of §4.8 is modelled here: the magic "GTIRB" (5 bytes), two reserved
zero bytes, one schema-version byte, then a structured-message payload
in a length-delimited, field-tagged binary format with Protocol
Buffers wire semantics.  Bytes are `Nat` values < 256.  A valid
envelope carries the canonical wire form, so the payload parser is
strict and accepts only minimally encoded varints — exactly the form
the writer emits. -/

/-- Parse one canonical base-128 varint (low groups first, bit 7 set on
every byte but the last, no trailing zero group). -/
def parseVarint : List Nat → Option (Nat × List Nat)
  | [] => none
  | b :: rest =>
    if b < 128 then some (b, rest)
    else if b < 256 then
      match parseVarint rest with
      | some (n, rest2) => if n = 0 then none else some ((b - 128) + 128 * n, rest2)
      | none => none
    else none

/-- Emit the canonical base-128 varint of a number. -/
def emitVarint (n : Nat) : List Nat :=
  if h : n < 128 then [n] else (n % 128 + 128) :: emitVarint (n / 128)
decreasing_by exact Nat.div_lt_self (by omega) (by omega)

theorem parseVarint_emit (n : Nat) : ∀ rest, parseVarint (emitVarint n ++ rest) = some (n, rest) := by
  induction n using Nat.strong_induction_on with
  | _ n ih =>
    intro rest
    rw [emitVarint]
    by_cases h : n < 128
    · rw [dif_pos h]
      show parseVarint (n :: rest) = some (n, rest)
      rw [parseVarint, if_pos h]
    · rw [dif_neg h]
      show parseVarint ((n % 128 + 128) :: (emitVarint (n / 128) ++ rest)) = some (n, rest)
      rw [parseVarint, if_neg (by omega), if_pos (by omega),
        ih (n / 128) (Nat.div_lt_self (by omega) (by omega)) rest]
      show (if n / 128 = 0 then none
        else some (n % 128 + 128 - 128 + 128 * (n / 128), rest)) = some (n, rest)
      rw [if_neg (by omega)]
      have heq : n % 128 + 128 - 128 + 128 * (n / 128) = n := by omega
      rw [heq]

theorem parseVarint_inv : ∀ (bs : List Nat) (n : Nat) (rest : List Nat),
    parseVarint bs = some (n, rest) → emitVarint n ++ rest = bs := by
  intro bs
  induction bs with
  | nil => intro n rest h; exact Option.noConfusion h
  | cons b tail ih =>
    intro n rest h
    rw [parseVarint] at h
    by_cases h1 : b < 128
    · rw [if_pos h1] at h
      have hp := Option.some.inj h
      rw [Prod.mk.injEq] at hp
      obtain ⟨hn, hr⟩ := hp
      rw [← hn, ← hr, emitVarint, dif_pos h1]
      rfl
    · rw [if_neg h1] at h
      by_cases h2 : b < 256
      · rw [if_pos h2] at h
        cases h3 : parseVarint tail with
        | none => rw [h3] at h; exact Option.noConfusion h
        | some p =>
          obtain ⟨n2, rest2⟩ := p
          rw [h3] at h
          have h5 : (if n2 = 0 then none
            else some (b - 128 + 128 * n2, rest2)) = some (n, rest) := h
          by_cases h4 : n2 = 0
          · rw [if_pos h4] at h5; exact Option.noConfusion h5
          · rw [if_neg h4] at h5
            have hp := Option.some.inj h5
            rw [Prod.mk.injEq] at hp
            obtain ⟨hn, hr⟩ := hp
            have htail := ih n2 rest2 h3
            rw [← hn, ← hr, emitVarint, dif_neg (by omega)]
            have hmod : (b - 128 + 128 * n2) % 128 + 128 = b := by omega
            have hdiv : (b - 128 + 128 * n2) / 128 = n2 := by omega
            rw [hmod, hdiv]
            show b :: (emitVarint n2 ++ rest2) = b :: tail
            rw [htail]
      · rw [if_neg h2] at h
        exact Option.noConfusion h

theorem parseVarint_length : ∀ (bs : List Nat) (n : Nat) (rest : List Nat),
    parseVarint bs = some (n, rest) → rest.length < bs.length := by
  intro bs
  induction bs with
  | nil => intro n rest h; exact Option.noConfusion h
  | cons b tail ih =>
    intro n rest h
    rw [parseVarint] at h
    by_cases h1 : b < 128
    · rw [if_pos h1] at h
      have hp := Option.some.inj h
      rw [Prod.mk.injEq] at hp
      rw [← hp.2]
      simp
    · rw [if_neg h1] at h
      by_cases h2 : b < 256
      · rw [if_pos h2] at h
        cases h3 : parseVarint tail with
        | none => rw [h3] at h; exact Option.noConfusion h
        | some p =>
          obtain ⟨n2, rest2⟩ := p
          rw [h3] at h
          have h5 : (if n2 = 0 then none
            else some (b - 128 + 128 * n2, rest2)) = some (n, rest) := h
          by_cases h4 : n2 = 0
          · rw [if_pos h4] at h5; exact Option.noConfusion h5
          · rw [if_neg h4] at h5
            have hp := Option.some.inj h5
            rw [Prod.mk.injEq] at hp
            have := ih n2 rest2 h3
            rw [← hp.2]
            simp only [List.length_cons]
            omega
      · rw [if_neg h2] at h
        exact Option.noConfusion h

/-- A parsed wire value, one per Protocol Buffers wire type: varint,
64-bit fixed, length-delimited, 32-bit fixed. -/
inductive WireVal where
  | vint (n : Nat)
  | fix64 (bs : List Nat)
  | lenDelim (bs : List Nat)
  | fix32 (bs : List Nat)
deriving DecidableEq

/-- A field of the structured message: the full key varint (field
number shifted over the 3-bit wire type) and its value. -/
structure WireField where
  key : Nat
  val : WireVal
deriving DecidableEq

/-- Parse one wire value according to the wire type. -/
def parseWireVal (wt : Nat) (bs : List Nat) : Option (WireVal × List Nat) :=
  if wt = 0 then
    match parseVarint bs with
    | some (n, rest) => some (.vint n, rest)
    | none => none
  else if wt = 1 then
    if 8 ≤ bs.length then some (.fix64 (bs.take 8), bs.drop 8) else none
  else if wt = 2 then
    match parseVarint bs with
    | some (len, rest) =>
      if len ≤ rest.length then some (.lenDelim (rest.take len), rest.drop len) else none
    | none => none
  else if wt = 5 then
    if 4 ≤ bs.length then some (.fix32 (bs.take 4), bs.drop 4) else none
  else none

/-- Emit one wire value. -/
def emitWireVal : WireVal → List Nat
  | .vint n => emitVarint n
  | .fix64 bs => bs
  | .lenDelim bs => emitVarint bs.length ++ bs
  | .fix32 bs => bs

theorem parseWireVal_inv (wt : Nat) (bs : List Nat) (v : WireVal) (rest : List Nat)
    (h : parseWireVal wt bs = some (v, rest)) : emitWireVal v ++ rest = bs := by
  rw [parseWireVal] at h
  by_cases h0 : wt = 0
  · rw [if_pos h0] at h
    cases h3 : parseVarint bs with
    | none => rw [h3] at h; exact Option.noConfusion h
    | some p =>
      obtain ⟨n, r⟩ := p
      rw [h3] at h
      have h5 : some (WireVal.vint n, r) = some (v, rest) := h
      have hp := Option.some.inj h5
      rw [Prod.mk.injEq] at hp
      rw [← hp.1, ← hp.2, emitWireVal]
      exact parseVarint_inv bs n r h3
  · rw [if_neg h0] at h
    by_cases h1 : wt = 1
    · rw [if_pos h1] at h
      by_cases h8 : 8 ≤ bs.length
      · rw [if_pos h8] at h
        have hp := Option.some.inj h
        rw [Prod.mk.injEq] at hp
        rw [← hp.1, ← hp.2, emitWireVal]
        exact List.take_append_drop 8 bs
      · rw [if_neg h8] at h; exact Option.noConfusion h
    · rw [if_neg h1] at h
      by_cases h2 : wt = 2
      · rw [if_pos h2] at h
        cases h3 : parseVarint bs with
        | none => rw [h3] at h; exact Option.noConfusion h
        | some p =>
          obtain ⟨len, r⟩ := p
          rw [h3] at h
          have h5 : (if len ≤ r.length then
              some (WireVal.lenDelim (r.take len), r.drop len) else none) =
              some (v, rest) := h
          by_cases h4 : len ≤ r.length
          · rw [if_pos h4] at h5
            have hp := Option.some.inj h5
            rw [Prod.mk.injEq] at hp
            rw [← hp.1, ← hp.2, emitWireVal]
            have hlen : (r.take len).length = len := by
              rw [List.length_take]
              omega
            rw [hlen, List.append_assoc, List.take_append_drop]
            exact parseVarint_inv bs len r h3
          · rw [if_neg h4] at h5; exact Option.noConfusion h5
      · rw [if_neg h2] at h
        by_cases h5 : wt = 5
        · rw [if_pos h5] at h
          by_cases h8 : 4 ≤ bs.length
          · rw [if_pos h8] at h
            have hp := Option.some.inj h
            rw [Prod.mk.injEq] at hp
            rw [← hp.1, ← hp.2, emitWireVal]
            exact List.take_append_drop 4 bs
          · rw [if_neg h8] at h; exact Option.noConfusion h
        · rw [if_neg h5] at h; exact Option.noConfusion h

theorem parseWireVal_length (wt : Nat) (bs : List Nat) (v : WireVal) (rest : List Nat)
    (h : parseWireVal wt bs = some (v, rest)) : rest.length ≤ bs.length := by
  have := parseWireVal_inv wt bs v rest h
  rw [← this]
  simp

/-- Parse the payload as a sequence of tagged fields, with the byte
count as structural fuel (each field consumes at least one byte). -/
def parseFieldsGo : Nat → List Nat → Option (List WireField)
  | _, [] => some []
  | 0, _ :: _ => none
  | fuel + 1, b :: tail =>
    match parseVarint (b :: tail) with
    | some (key, r1) =>
      match parseWireVal (key % 8) r1 with
      | some (v, r2) =>
        match parseFieldsGo fuel r2 with
        | some fs => some ({ key := key, val := v } :: fs)
        | none => none
      | none => none
    | none => none

/-- Parse a whole structured-message payload; strict: every byte must
belong to a well-formed field. -/
def parseFields (bs : List Nat) : Option (List WireField) :=
  parseFieldsGo bs.length bs

/-- Emit a structured message, field by field in order. -/
def emitFields : List WireField → List Nat
  | [] => []
  | f :: fs => emitVarint f.key ++ (emitWireVal f.val ++ emitFields fs)

theorem parseFieldsGo_inv : ∀ (fuel : Nat) (bs : List Nat) (fs : List WireField),
    bs.length ≤ fuel → parseFieldsGo fuel bs = some fs → emitFields fs = bs := by
  intro fuel
  induction fuel with
  | zero =>
    intro bs fs hlen h
    cases bs with
    | nil =>
      rw [parseFieldsGo] at h
      rw [← Option.some.inj h]
      rfl
    | cons b tail => exact Option.noConfusion h
  | succ fuel ih =>
    intro bs fs hlen h
    cases bs with
    | nil =>
      rw [parseFieldsGo] at h
      rw [← Option.some.inj h]
      rfl
    | cons b tail =>
      rw [parseFieldsGo] at h
      cases h1 : parseVarint (b :: tail) with
      | none => rw [h1] at h; exact Option.noConfusion h
      | some p1 =>
        obtain ⟨key, r1⟩ := p1
        rw [h1] at h
        have hb : (match parseWireVal (key % 8) r1 with
          | some (v, r2) =>
            match parseFieldsGo fuel r2 with
            | some fs2 => some ({ key := key, val := v } :: fs2)
            | none => none
          | none => none) = some fs := h
        cases h2 : parseWireVal (key % 8) r1 with
        | none => rw [h2] at hb; exact Option.noConfusion hb
        | some p2 =>
          obtain ⟨v, r2⟩ := p2
          rw [h2] at hb
          have hc : (match parseFieldsGo fuel r2 with
            | some fs2 => some ({ key := key, val := v } :: fs2)
            | none => none) = some fs := hb
          cases h3 : parseFieldsGo fuel r2 with
          | none => rw [h3] at hc; exact Option.noConfusion hc
          | some fs2 =>
            rw [h3] at hc
            have hlen1 := parseVarint_length (b :: tail) key r1 h1
            have hlen2 := parseWireVal_length (key % 8) r1 v r2 h2
            have hrec := ih r2 fs2
              (by simp only [List.length_cons] at hlen1 hlen; omega) h3
            rw [← Option.some.inj hc, emitFields]
            rw [hrec, parseWireVal_inv (key % 8) r1 v r2 h2]
            exact parseVarint_inv (b :: tail) key r1 h1

/-- The five magic bytes spelling GTIRB. -/
def gtirbMagic : List Nat := [71, 84, 73, 82, 66]

/-- Typed read failures of the envelope reader (spec §7). -/
inductive ReadError where
  | ioError
  | badEnvelope
  | decodeError
deriving DecidableEq

/-- The in-memory result of a read: the schema version together with
the structured payload message. -/
structure IRMessage where
  version : Nat
  fields : List WireField
deriving DecidableEq

/-- Modelled from the spec: the read path verifies the magic, the two
reserved zero bytes and the schema version (an unknown version with no
upgrade path is a BadEnvelope), then parses the structured payload (a
malformed payload is a DecodeError). -/
def readEnvelope (cur : Nat) (bs : List Nat) : Except ReadError IRMessage :=
  if bs.take 5 = gtirbMagic then
    match bs.drop 5 with
    | r0 :: r1 :: v :: payload =>
      if r0 = 0 ∧ r1 = 0 then
        if v = cur then
          match parseFields payload with
          | some fs => .ok { version := v, fields := fs }
          | none => .error .decodeError
        else .error .badEnvelope
      else .error .badEnvelope
    | _ => .error .badEnvelope
  else .error .badEnvelope

/-- Modelled from the spec: the write path emits the magic, the two
reserved zero bytes, the schema version and the payload. -/
def writeEnvelope (ir : IRMessage) : List Nat :=
  gtirbMagic ++ (0 :: 0 :: ir.version :: emitFields ir.fields)

/-- C1: byte-level read/write idempotence.  Reading a valid envelope
at the current schema version and then writing the resulting IR
produces a byte sequence identical to the input. -/
theorem envelope_write_read_id (cur : Nat) (bs : List Nat) (ir : IRMessage)
    (h : readEnvelope cur bs = .ok ir) : writeEnvelope ir = bs := by
  rw [readEnvelope] at h
  split at h
  all_goals try exact Except.noConfusion h
  rename_i hm
  split at h
  all_goals try exact Except.noConfusion h
  rename_i r0 r1 v payload hd
  split at h
  all_goals try exact Except.noConfusion h
  rename_i hz
  split at h
  all_goals try exact Except.noConfusion h
  split at h
  all_goals try exact Except.noConfusion h
  rename_i fs hp
  obtain ⟨hz0, hz1⟩ := hz
  have hir := Except.ok.inj h
  rw [← hir]
  show gtirbMagic ++ (0 :: 0 :: v :: emitFields fs) = bs
  have hp2 : parseFieldsGo payload.length payload = some fs := hp
  have hpayload := parseFieldsGo_inv payload.length payload fs (le_refl _) hp2
  rw [hpayload]
  conv_rhs => rw [← List.take_append_drop 5 bs]
  rw [hm, hd, hz0, hz1]

/-- A concrete valid envelope: magic, reserved zero bytes, version 4,
and a one-field payload (field 1, wire type 0, value 1). -/
def witnessEnvelope : List Nat := [71, 84, 73, 82, 66, 0, 0, 4, 8, 1]

/-- Witness for C1: the concrete envelope reads successfully and
writing the result reproduces it byte for byte. -/
theorem envelope_write_read_id_witness :
    readEnvelope 4 witnessEnvelope =
      .ok { version := 4, fields := [{ key := 8, val := .vint 1 }] } ∧
    writeEnvelope { version := 4, fields := [{ key := 8, val := .vint 1 }] } =
      witnessEnvelope := by
  have h : readEnvelope 4 witnessEnvelope =
      .ok { version := 4, fields := [{ key := 8, val := .vint 1 }] } := rfl
  exact ⟨h, envelope_write_read_id 4 witnessEnvelope _ h⟩

/-- C3: malformed inputs fail with the specified typed error and never
produce an IR.  A file opening with JUNK! fails with BadEnvelope, a
file with correct magic and reserved bytes but the unknown schema
version 255 fails with BadEnvelope, and a file with correct magic and
version whose payload is the single byte 0xFF fails with
DecodeError. -/
theorem envelope_bad_inputs (cur : Nat) (rest : List Nat) (hv : cur ≠ 255) :
    readEnvelope cur ([74, 85, 78, 75, 33] ++ rest) = .error .badEnvelope ∧
    readEnvelope cur (gtirbMagic ++ [0, 0, 255]) = .error .badEnvelope ∧
    readEnvelope cur (gtirbMagic ++ [0, 0, cur, 255]) = .error .decodeError := by
  refine ⟨rfl, ?_, ?_⟩
  · rw [show readEnvelope cur (gtirbMagic ++ [0, 0, 255]) =
      if (255 : Nat) = cur then Except.ok { version := 255, fields := [] }
      else Except.error ReadError.badEnvelope from rfl]
    rw [if_neg fun hgoal => hv hgoal.symm]
  · rw [show readEnvelope cur (gtirbMagic ++ [0, 0, cur, 255]) =
      if cur = cur then Except.error ReadError.decodeError
      else Except.error ReadError.badEnvelope from rfl]
    rw [if_pos rfl]

/-- Witness for C3 at version 4 with two junk trailing bytes. -/
theorem envelope_bad_inputs_witness :
    (4 : Nat) ≠ 255 ∧
    (readEnvelope 4 ([74, 85, 78, 75, 33] ++ [9, 9]) = .error .badEnvelope ∧
     readEnvelope 4 (gtirbMagic ++ [0, 0, 255]) = .error .badEnvelope ∧
     readEnvelope 4 (gtirbMagic ++ [0, 0, 4, 255]) = .error .decodeError) := by
  have hv : (4 : Nat) ≠ 255 := by decide
  exact ⟨hv, envelope_bad_inputs 4 [9, 9] hv⟩


/-- A module holding symbols named start, main, start — the concrete
lookup scenario of the specification. -/
def scenarioModule : Module :=
  { symbols := [{ name := "start", addr := none }, { name := "main", addr := none },
                { name := "start", addr := none }] }

/-- C4: `findSymbols(N)` returns exactly the symbols of the module
whose name equals N, with multiplicity, and never an error; in the
concrete scenario the three symbols start, main, start yield two
results for start, one for main and none for an absent name. -/
theorem findSymbols_by_name_exact :
    (∀ (m : Module) (n : String),
      (m.findSymbolsByName n).Perm (m.symbols.filter fun s => s.name == n)) ∧
    (scenarioModule.findSymbolsByName "start").length = 2 ∧
    (scenarioModule.findSymbolsByName "main").length = 1 ∧
    (scenarioModule.findSymbolsByName "_nonexistent").length = 0 := by
  refine ⟨Module.findSymbolsByName_perm, ?_, ?_, ?_⟩ <;> decide

/-- C5: `findSymbols(Low, High)` returns exactly the symbols whose
address A satisfies Low ≤ A < High — the half-open interval — and a
query matching nothing is the empty range, never an error. -/
theorem findSymbols_addr_range_halfopen (m : Module) (lo hi : Nat) :
    (m.findSymbolsBetween lo hi).Perm (m.symbols.filter fun s =>
      match s.addr with
      | some a => decide (lo ≤ a) && decide (a < hi)
      | none => false) :=
  Module.findSymbolsBetween_perm m lo hi

/-- C10: an address-range query never yields a symbol without an
address, because absent addresses order strictly before every concrete
address in the by-address index and the query lower-bounds at Low. -/
theorem findSymbols_range_no_addressless (m : Module) (lo hi : Nat) :
    ((m.findSymbolsBetween lo hi).all fun s => s.addr.isSome) = true := by
  apply List.all_eq_true.mpr
  intro s hs
  have hmem := (Module.findSymbolsBetween_perm m lo hi).mem_iff.mp hs
  have hp := (List.mem_filter.mp hmem).2
  cases ha : s.addr with
  | none => rw [ha] at hp; exact Bool.noConfusion hp
  | some a => rfl


/-- C9: a `Variant11` value is a tagged union whose tag is the
zero-based index of the populated alternative.  For every field index
k (0 ≤ k ≤ 10), setting the k-th field produces the k-th constructor
state; on that state `getIndex` returns k, the getter for field k
returns the stored object wrapped in an option, and the getter for
every other field is empty. -/
theorem variant11_tagged_union {A B C D E F G H I J K : Type} :
    (∀ (v : Variant11 A B C D E F G H I J K) (x : A), v.set0 x = .t0 x) ∧
    (∀ (x : A), (Variant11.t0 x : Variant11 A B C D E F G H I J K).getIndex = 0 ∧
      (Variant11.t0 x : Variant11 A B C D E F G H I J K).get0 = some x ∧
      (Variant11.t0 x : Variant11 A B C D E F G H I J K).get1 = none ∧
      (Variant11.t0 x : Variant11 A B C D E F G H I J K).get2 = none ∧
      (Variant11.t0 x : Variant11 A B C D E F G H I J K).get3 = none ∧
      (Variant11.t0 x : Variant11 A B C D E F G H I J K).get4 = none ∧
      (Variant11.t0 x : Variant11 A B C D E F G H I J K).get5 = none ∧
      (Variant11.t0 x : Variant11 A B C D E F G H I J K).get6 = none ∧
      (Variant11.t0 x : Variant11 A B C D E F G H I J K).get7 = none ∧
      (Variant11.t0 x : Variant11 A B C D E F G H I J K).get8 = none ∧
      (Variant11.t0 x : Variant11 A B C D E F G H I J K).get9 = none ∧
      (Variant11.t0 x : Variant11 A B C D E F G H I J K).get10 = none) ∧
    (∀ (v : Variant11 A B C D E F G H I J K) (x : B), v.set1 x = .t1 x) ∧
    (∀ (x : B), (Variant11.t1 x : Variant11 A B C D E F G H I J K).getIndex = 1 ∧
      (Variant11.t1 x : Variant11 A B C D E F G H I J K).get1 = some x ∧
      (Variant11.t1 x : Variant11 A B C D E F G H I J K).get0 = none ∧
      (Variant11.t1 x : Variant11 A B C D E F G H I J K).get2 = none ∧
      (Variant11.t1 x : Variant11 A B C D E F G H I J K).get3 = none ∧
      (Variant11.t1 x : Variant11 A B C D E F G H I J K).get4 = none ∧
      (Variant11.t1 x : Variant11 A B C D E F G H I J K).get5 = none ∧
      (Variant11.t1 x : Variant11 A B C D E F G H I J K).get6 = none ∧
      (Variant11.t1 x : Variant11 A B C D E F G H I J K).get7 = none ∧
      (Variant11.t1 x : Variant11 A B C D E F G H I J K).get8 = none ∧
      (Variant11.t1 x : Variant11 A B C D E F G H I J K).get9 = none ∧
      (Variant11.t1 x : Variant11 A B C D E F G H I J K).get10 = none) ∧
    (∀ (v : Variant11 A B C D E F G H I J K) (x : C), v.set2 x = .t2 x) ∧
    (∀ (x : C), (Variant11.t2 x : Variant11 A B C D E F G H I J K).getIndex = 2 ∧
      (Variant11.t2 x : Variant11 A B C D E F G H I J K).get2 = some x ∧
      (Variant11.t2 x : Variant11 A B C D E F G H I J K).get0 = none ∧
      (Variant11.t2 x : Variant11 A B C D E F G H I J K).get1 = none ∧
      (Variant11.t2 x : Variant11 A B C D E F G H I J K).get3 = none ∧
      (Variant11.t2 x : Variant11 A B C D E F G H I J K).get4 = none ∧
      (Variant11.t2 x : Variant11 A B C D E F G H I J K).get5 = none ∧
      (Variant11.t2 x : Variant11 A B C D E F G H I J K).get6 = none ∧
      (Variant11.t2 x : Variant11 A B C D E F G H I J K).get7 = none ∧
      (Variant11.t2 x : Variant11 A B C D E F G H I J K).get8 = none ∧
      (Variant11.t2 x : Variant11 A B C D E F G H I J K).get9 = none ∧
      (Variant11.t2 x : Variant11 A B C D E F G H I J K).get10 = none) ∧
    (∀ (v : Variant11 A B C D E F G H I J K) (x : D), v.set3 x = .t3 x) ∧
    (∀ (x : D), (Variant11.t3 x : Variant11 A B C D E F G H I J K).getIndex = 3 ∧
      (Variant11.t3 x : Variant11 A B C D E F G H I J K).get3 = some x ∧
      (Variant11.t3 x : Variant11 A B C D E F G H I J K).get0 = none ∧
      (Variant11.t3 x : Variant11 A B C D E F G H I J K).get1 = none ∧
      (Variant11.t3 x : Variant11 A B C D E F G H I J K).get2 = none ∧
      (Variant11.t3 x : Variant11 A B C D E F G H I J K).get4 = none ∧
      (Variant11.t3 x : Variant11 A B C D E F G H I J K).get5 = none ∧
      (Variant11.t3 x : Variant11 A B C D E F G H I J K).get6 = none ∧
      (Variant11.t3 x : Variant11 A B C D E F G H I J K).get7 = none ∧
      (Variant11.t3 x : Variant11 A B C D E F G H I J K).get8 = none ∧
      (Variant11.t3 x : Variant11 A B C D E F G H I J K).get9 = none ∧
      (Variant11.t3 x : Variant11 A B C D E F G H I J K).get10 = none) ∧
    (∀ (v : Variant11 A B C D E F G H I J K) (x : E), v.set4 x = .t4 x) ∧
    (∀ (x : E), (Variant11.t4 x : Variant11 A B C D E F G H I J K).getIndex = 4 ∧
      (Variant11.t4 x : Variant11 A B C D E F G H I J K).get4 = some x ∧
      (Variant11.t4 x : Variant11 A B C D E F G H I J K).get0 = none ∧
      (Variant11.t4 x : Variant11 A B C D E F G H I J K).get1 = none ∧
      (Variant11.t4 x : Variant11 A B C D E F G H I J K).get2 = none ∧
      (Variant11.t4 x : Variant11 A B C D E F G H I J K).get3 = none ∧
      (Variant11.t4 x : Variant11 A B C D E F G H I J K).get5 = none ∧
      (Variant11.t4 x : Variant11 A B C D E F G H I J K).get6 = none ∧
      (Variant11.t4 x : Variant11 A B C D E F G H I J K).get7 = none ∧
      (Variant11.t4 x : Variant11 A B C D E F G H I J K).get8 = none ∧
      (Variant11.t4 x : Variant11 A B C D E F G H I J K).get9 = none ∧
      (Variant11.t4 x : Variant11 A B C D E F G H I J K).get10 = none) ∧
    (∀ (v : Variant11 A B C D E F G H I J K) (x : F), v.set5 x = .t5 x) ∧
    (∀ (x : F), (Variant11.t5 x : Variant11 A B C D E F G H I J K).getIndex = 5 ∧
      (Variant11.t5 x : Variant11 A B C D E F G H I J K).get5 = some x ∧
      (Variant11.t5 x : Variant11 A B C D E F G H I J K).get0 = none ∧
      (Variant11.t5 x : Variant11 A B C D E F G H I J K).get1 = none ∧
      (Variant11.t5 x : Variant11 A B C D E F G H I J K).get2 = none ∧
      (Variant11.t5 x : Variant11 A B C D E F G H I J K).get3 = none ∧
      (Variant11.t5 x : Variant11 A B C D E F G H I J K).get4 = none ∧
      (Variant11.t5 x : Variant11 A B C D E F G H I J K).get6 = none ∧
      (Variant11.t5 x : Variant11 A B C D E F G H I J K).get7 = none ∧
      (Variant11.t5 x : Variant11 A B C D E F G H I J K).get8 = none ∧
      (Variant11.t5 x : Variant11 A B C D E F G H I J K).get9 = none ∧
      (Variant11.t5 x : Variant11 A B C D E F G H I J K).get10 = none) ∧
    (∀ (v : Variant11 A B C D E F G H I J K) (x : G), v.set6 x = .t6 x) ∧
    (∀ (x : G), (Variant11.t6 x : Variant11 A B C D E F G H I J K).getIndex = 6 ∧
      (Variant11.t6 x : Variant11 A B C D E F G H I J K).get6 = some x ∧
      (Variant11.t6 x : Variant11 A B C D E F G H I J K).get0 = none ∧
      (Variant11.t6 x : Variant11 A B C D E F G H I J K).get1 = none ∧
      (Variant11.t6 x : Variant11 A B C D E F G H I J K).get2 = none ∧
      (Variant11.t6 x : Variant11 A B C D E F G H I J K).get3 = none ∧
      (Variant11.t6 x : Variant11 A B C D E F G H I J K).get4 = none ∧
      (Variant11.t6 x : Variant11 A B C D E F G H I J K).get5 = none ∧
      (Variant11.t6 x : Variant11 A B C D E F G H I J K).get7 = none ∧
      (Variant11.t6 x : Variant11 A B C D E F G H I J K).get8 = none ∧
      (Variant11.t6 x : Variant11 A B C D E F G H I J K).get9 = none ∧
      (Variant11.t6 x : Variant11 A B C D E F G H I J K).get10 = none) ∧
    (∀ (v : Variant11 A B C D E F G H I J K) (x : H), v.set7 x = .t7 x) ∧
    (∀ (x : H), (Variant11.t7 x : Variant11 A B C D E F G H I J K).getIndex = 7 ∧
      (Variant11.t7 x : Variant11 A B C D E F G H I J K).get7 = some x ∧
      (Variant11.t7 x : Variant11 A B C D E F G H I J K).get0 = none ∧
      (Variant11.t7 x : Variant11 A B C D E F G H I J K).get1 = none ∧
      (Variant11.t7 x : Variant11 A B C D E F G H I J K).get2 = none ∧
      (Variant11.t7 x : Variant11 A B C D E F G H I J K).get3 = none ∧
      (Variant11.t7 x : Variant11 A B C D E F G H I J K).get4 = none ∧
      (Variant11.t7 x : Variant11 A B C D E F G H I J K).get5 = none ∧
      (Variant11.t7 x : Variant11 A B C D E F G H I J K).get6 = none ∧
      (Variant11.t7 x : Variant11 A B C D E F G H I J K).get8 = none ∧
      (Variant11.t7 x : Variant11 A B C D E F G H I J K).get9 = none ∧
      (Variant11.t7 x : Variant11 A B C D E F G H I J K).get10 = none) ∧
    (∀ (v : Variant11 A B C D E F G H I J K) (x : I), v.set8 x = .t8 x) ∧
    (∀ (x : I), (Variant11.t8 x : Variant11 A B C D E F G H I J K).getIndex = 8 ∧
      (Variant11.t8 x : Variant11 A B C D E F G H I J K).get8 = some x ∧
      (Variant11.t8 x : Variant11 A B C D E F G H I J K).get0 = none ∧
      (Variant11.t8 x : Variant11 A B C D E F G H I J K).get1 = none ∧
      (Variant11.t8 x : Variant11 A B C D E F G H I J K).get2 = none ∧
      (Variant11.t8 x : Variant11 A B C D E F G H I J K).get3 = none ∧
      (Variant11.t8 x : Variant11 A B C D E F G H I J K).get4 = none ∧
      (Variant11.t8 x : Variant11 A B C D E F G H I J K).get5 = none ∧
      (Variant11.t8 x : Variant11 A B C D E F G H I J K).get6 = none ∧
      (Variant11.t8 x : Variant11 A B C D E F G H I J K).get7 = none ∧
      (Variant11.t8 x : Variant11 A B C D E F G H I J K).get9 = none ∧
      (Variant11.t8 x : Variant11 A B C D E F G H I J K).get10 = none) ∧
    (∀ (v : Variant11 A B C D E F G H I J K) (x : J), v.set9 x = .t9 x) ∧
    (∀ (x : J), (Variant11.t9 x : Variant11 A B C D E F G H I J K).getIndex = 9 ∧
      (Variant11.t9 x : Variant11 A B C D E F G H I J K).get9 = some x ∧
      (Variant11.t9 x : Variant11 A B C D E F G H I J K).get0 = none ∧
      (Variant11.t9 x : Variant11 A B C D E F G H I J K).get1 = none ∧
      (Variant11.t9 x : Variant11 A B C D E F G H I J K).get2 = none ∧
      (Variant11.t9 x : Variant11 A B C D E F G H I J K).get3 = none ∧
      (Variant11.t9 x : Variant11 A B C D E F G H I J K).get4 = none ∧
      (Variant11.t9 x : Variant11 A B C D E F G H I J K).get5 = none ∧
      (Variant11.t9 x : Variant11 A B C D E F G H I J K).get6 = none ∧
      (Variant11.t9 x : Variant11 A B C D E F G H I J K).get7 = none ∧
      (Variant11.t9 x : Variant11 A B C D E F G H I J K).get8 = none ∧
      (Variant11.t9 x : Variant11 A B C D E F G H I J K).get10 = none) ∧
    (∀ (v : Variant11 A B C D E F G H I J K) (x : K), v.set10 x = .t10 x) ∧
    (∀ (x : K), (Variant11.t10 x : Variant11 A B C D E F G H I J K).getIndex = 10 ∧
      (Variant11.t10 x : Variant11 A B C D E F G H I J K).get10 = some x ∧
      (Variant11.t10 x : Variant11 A B C D E F G H I J K).get0 = none ∧
      (Variant11.t10 x : Variant11 A B C D E F G H I J K).get1 = none ∧
      (Variant11.t10 x : Variant11 A B C D E F G H I J K).get2 = none ∧
      (Variant11.t10 x : Variant11 A B C D E F G H I J K).get3 = none ∧
      (Variant11.t10 x : Variant11 A B C D E F G H I J K).get4 = none ∧
      (Variant11.t10 x : Variant11 A B C D E F G H I J K).get5 = none ∧
      (Variant11.t10 x : Variant11 A B C D E F G H I J K).get6 = none ∧
      (Variant11.t10 x : Variant11 A B C D E F G H I J K).get7 = none ∧
      (Variant11.t10 x : Variant11 A B C D E F G H I J K).get8 = none ∧
      (Variant11.t10 x : Variant11 A B C D E F G H I J K).get9 = none) := by
  repeat' apply And.intro
  all_goals intros
  all_goals first
    | rfl
    | (repeat' apply And.intro) <;> rfl

/-- C8: size changes are always committed.  After `setSize s` the
block's size is `s`, whether or not an observer is installed, and every
emitted observer event carries the old and new values while already
seeing the committed new size. -/
theorem setSize_commits_before_notify (b : CodeBlockState) (s : Nat) :
    (b.setSize s).1.size = s ∧
    ((b.setSize s).2.all fun e =>
      e.sizeAtCallback == s && e.oldSize == b.size && e.newSize == s) = true := by
  unfold CodeBlockState.setSize
  by_cases h : b.hasObserver <;> simp [h]

/-- C6: parent back-references stay consistent under `addSymbol` and
`removeSymbol`.  From a consistent store, `addSymbol m s` yields a
consistent store in which s's parent is m and s is listed in m, and a
successful `removeSymbol m s` yields a consistent store in which s's
parent is null and s is no longer listed. -/
theorem symbol_parent_backrefs_consistent (st : SymStore) (m s : Nat)
    (hc : st.Consistent) :
    ((st.addSymbol m s).Consistent ∧
      (st.addSymbol m s).parentOf s = some m ∧
      s ∈ (st.addSymbol m s).contains m) ∧
    ((st.removeSymbol m s).2 = true →
      (st.removeSymbol m s).1.Consistent ∧
      (st.removeSymbol m s).1.parentOf s = none ∧
      s ∉ (st.removeSymbol m s).1.contains m) := by
  obtain ⟨hiff, hnd⟩ := hc
  constructor
  · unfold SymStore.addSymbol
    cases hp : st.parentOf s with
    | none =>
      refine SymStore.insertHere_spec st m s hiff hnd ?_
      intro m2 h
      have h2 := (hiff s m2).mpr h
      rw [hp] at h2
      exact Option.noConfusion h2
    | some m0 =>
      have hmem0 : s ∈ st.contains m0 := (hiff s m0).mp hp
      obtain ⟨-, hiff1, hnd1, -, hnot1⟩ :=
        SymStore.removeSymbol_mem_spec st m0 s hiff hnd hmem0
      exact SymStore.insertHere_spec _ m s hiff1 hnd1 hnot1
  · intro hret
    have hmem : s ∈ st.contains m := by
      by_contra hno
      rw [SymStore.removeSymbol, if_neg hno] at hret
      exact Bool.noConfusion hret
    obtain ⟨-, hiff1, hnd1, hnone, hnot1⟩ :=
      SymStore.removeSymbol_mem_spec st m s hiff hnd hmem
    exact ⟨⟨hiff1, hnd1⟩, hnone, hnot1 m⟩

/-- An empty store used as concrete input in witnesses. -/
def emptySymStore : SymStore :=
  { contains := fun _ => [], parentOf := fun _ => none }

/-- An empty proxy-block store used as concrete input in witnesses. -/
def emptyProxyStore : ProxyStore :=
  { blocks := fun _ => [], parentOf := fun _ => none }

/-- Witness for C6 at the empty store: adding symbol 1 to module 0
yields a consistent store with the parent pointer set. -/
theorem symbol_parent_backrefs_consistent_witness :
    emptySymStore.Consistent ∧
    (((emptySymStore.addSymbol 0 1).Consistent ∧
      (emptySymStore.addSymbol 0 1).parentOf 1 = some 0 ∧
      1 ∈ (emptySymStore.addSymbol 0 1).contains 0) ∧
    ((emptySymStore.removeSymbol 0 1).2 = true →
      (emptySymStore.removeSymbol 0 1).1.Consistent ∧
      (emptySymStore.removeSymbol 0 1).1.parentOf 1 = none ∧
      1 ∉ (emptySymStore.removeSymbol 0 1).1.contains 0)) := by
  have h : emptySymStore.Consistent := by
    constructor
    · intro s m; simp [emptySymStore]
    · intro m; simp [emptySymStore]
  exact ⟨h, symbol_parent_backrefs_consistent emptySymStore 0 1 h⟩

/-- C7: removing a child that is not contained reports no change and
leaves everything untouched: `Module::removeSymbol` returns `false`
(its no-change result) with the store — collection, derived indices and
parent pointers — structurally unchanged, and `Module::removeProxyBlock`
returns the tri-state `NoChange` likewise. -/
theorem remove_absent_child_nochange (st : SymStore) (pst : ProxyStore) (m s b : Nat)
    (hs : s ∉ st.contains m) (hb : b ∉ pst.blocks m) :
    st.removeSymbol m s = (st, false) ∧
    pst.removeProxyBlock m b = (pst, ChangeStatus.noChange) := by
  constructor
  · rw [SymStore.removeSymbol, if_neg hs]
  · rw [ProxyStore.removeProxyBlock, if_neg hb]

/-- Witness for C7 at the empty stores: symbol 1 and proxy block 2 are
absent from module 0, so removal reports no change. -/
theorem remove_absent_child_nochange_witness :
    (1 ∉ emptySymStore.contains 0 ∧ 2 ∉ emptyProxyStore.blocks 0) ∧
    (emptySymStore.removeSymbol 0 1 = (emptySymStore, false) ∧
      emptyProxyStore.removeProxyBlock 0 2 = (emptyProxyStore, ChangeStatus.noChange)) := by
  have h1 : 1 ∉ emptySymStore.contains 0 := by simp [emptySymStore]
  have h2 : 2 ∉ emptyProxyStore.blocks 0 := by simp [emptyProxyStore]
  exact ⟨⟨h1, h2⟩, remove_absent_child_nochange emptySymStore emptyProxyStore 0 1 2 h1 h2⟩

/-! ## AuxData type grammar and codec (spec §4.7)

Modelled from the spec: the AuxData codec implementation is present in
the sources only through its tests (src/cl/test.lisp) and the schema
documentation, so the §4.7 wire format is modelled here.  Types are the
leaves bool, int8…int64, uint8…uint64, float, double, string, UUID,
Addr, Offset and the constructors sequence, set, mapping, tuple and
variant.  All scalars are little-endian on the wire; float and double
values are represented by their IEEE-754 bit patterns (a 4- or 8-byte
little-endian word), which is exactly what the wire carries.  Set
elements and mapping keys are ordered ascending by their encoded form
— the byte-lexicographic order — and duplicates (or out-of-order
runs, which a writer never produces) are rejected on decode, so that a
successful decode always re-encodes to the identical payload. -/

mutual
inductive AuxTy where
  | boolTy
  | int8Ty
  | int16Ty
  | int32Ty
  | int64Ty
  | uint8Ty
  | uint16Ty
  | uint32Ty
  | uint64Ty
  | floatTy
  | doubleTy
  | stringTy
  | uuidTy
  | addrTy
  | offsetTy
  | seqTy (t : AuxTy)
  | setTy (t : AuxTy)
  | mapTy (kt vt : AuxTy)
  | tupleTy (ts : AuxTyList)
  | variantTy (ts : AuxTyList)
inductive AuxTyList where
  | nil
  | cons (t : AuxTy) (ts : AuxTyList)
end

mutual
inductive AuxVal where
  | vBool (b : Bool)
  | vUInt (n : Nat)
  | vInt (i : Int)
  | vString (bs : List Nat)
  | vUuid (bs : List Nat)
  | vOffset (u : List Nat) (d : Nat)
  | vList (l : AuxValList)
  | vMap (ps : AuxPairList)
  | vVariant (tag : Nat) (v : AuxVal)
inductive AuxValList where
  | nil
  | cons (v : AuxVal) (vs : AuxValList)
inductive AuxPairList where
  | nil
  | cons (k v : AuxVal) (ps : AuxPairList)
end

/-- Little-endian encoding of a number into exactly w bytes. -/
def natLE : Nat → Nat → List Nat
  | 0, _ => []
  | w + 1, n => n % 256 :: natLE w (n / 256)

/-- Value of a little-endian byte string. -/
def leVal : List Nat → Nat
  | [] => 0
  | b :: bs => b + 256 * leVal bs

/-- Every entry of the list is a byte. -/
def bytesOk (bs : List Nat) : Bool := bs.all fun b => decide (b < 256)

theorem natLE_length (w : Nat) : ∀ n, (natLE w n).length = w := by
  induction w with
  | zero => intro n; rfl
  | succ w ih => intro n; simp [natLE, ih]

theorem natLE_bytesOk (w : Nat) : ∀ n, bytesOk (natLE w n) = true := by
  induction w with
  | zero => intro n; rfl
  | succ w ih =>
    intro n
    rw [natLE, bytesOk, List.all_cons]
    have ih2 : ((natLE w (n / 256)).all fun b => decide (b < 256)) = true := ih (n / 256)
    rw [ih2]
    simp [Nat.mod_lt n (by omega : 0 < 256)]

theorem leVal_natLE (w : Nat) : ∀ n, n < 256 ^ w → leVal (natLE w n) = n := by
  induction w with
  | zero =>
    intro n h
    rw [pow_zero] at h
    show 0 = n
    omega
  | succ w ih =>
    intro n h
    have hp : (256 : Nat) ^ (w + 1) = 256 ^ w * 256 := pow_succ 256 w
    have hdiv : n / 256 < 256 ^ w := by
      rw [Nat.div_lt_iff_lt_mul (by omega : 0 < 256)]
      omega
    rw [natLE, leVal, ih (n / 256) hdiv]
    omega

theorem natLE_leVal (w : Nat) : ∀ bs : List Nat, bs.length = w → bytesOk bs = true →
    natLE w (leVal bs) = bs := by
  induction w with
  | zero =>
    intro bs hlen _
    rw [List.length_eq_zero] at hlen
    rw [hlen]
    rfl
  | succ w ih =>
    intro bs hlen hok
    cases bs with
    | nil => exact absurd hlen (by simp)
    | cons b rest =>
      rw [bytesOk, List.all_cons, Bool.and_eq_true, decide_eq_true_eq] at hok
      obtain ⟨hb, hrest⟩ := hok
      rw [List.length_cons] at hlen
      have hmod : (b + 256 * leVal rest) % 256 = b := by omega
      have hdiv : (b + 256 * leVal rest) / 256 = leVal rest := by omega
      rw [leVal, natLE, hmod, hdiv, ih rest (by omega) hrest]

theorem leVal_lt (w : Nat) : ∀ bs : List Nat, bs.length = w → bytesOk bs = true →
    leVal bs < 256 ^ w := by
  induction w with
  | zero =>
    intro bs hlen _
    rw [List.length_eq_zero] at hlen
    rw [hlen, pow_zero]
    show 0 < 1
    omega
  | succ w ih =>
    intro bs hlen hok
    cases bs with
    | nil => exact absurd hlen (by simp)
    | cons b rest =>
      rw [bytesOk, List.all_cons, Bool.and_eq_true, decide_eq_true_eq] at hok
      obtain ⟨hb, hrest⟩ := hok
      rw [List.length_cons] at hlen
      have hr := ih rest (by omega) hrest
      have hp : (256 : Nat) ^ (w + 1) = 256 ^ w * 256 := pow_succ 256 w
      rw [leVal]
      omega

/-- Half the range of a w-byte word; the signed/unsigned boundary. -/
def half (w : Nat) : Nat := 256 ^ w / 2

theorem half_spec (w : Nat) (hw : 0 < w) : 2 * half w = 256 ^ w := by
  have h : (2 : Nat) ∣ 256 ^ w := dvd_pow (by norm_num) (by omega)
  exact Nat.mul_div_cancel' h

/-- Range check for a w-byte two's-complement value. -/
def intOk (w : Nat) (i : Int) : Bool :=
  decide (-(half w : Int) ≤ i) && decide (i < (half w : Int))

/-- Two's-complement encoding: reduce into [0, 256^w) and emit
little-endian. -/
def intEnc (w : Nat) (i : Int) : List Nat := natLE w (i % ((256 : Int) ^ w)).toNat

/-- Two's-complement decoding of a w-byte word value. -/
def intDec (w : Nat) (n : Nat) : Int :=
  if n < half w then (n : Int) else (n : Int) - (256 : Int) ^ w

theorem intEnc_spec (w : Nat) (hw : 0 < w) (i : Int) (h : intOk w i = true) :
    (i % ((256 : Int) ^ w)).toNat < 256 ^ w ∧
    intDec w ((i % ((256 : Int) ^ w)).toNat) = i := by
  rw [intOk, Bool.and_eq_true, decide_eq_true_eq, decide_eq_true_eq] at h
  obtain ⟨h1, h2⟩ := h
  have hhalf := half_spec w hw
  have hcast : ((256 ^ w : Nat) : Int) = (256 : Int) ^ w := by push_cast; rfl
  have hH : 2 * ((half w : Nat) : Int) = (256 : Int) ^ w := by
    rw [← hcast]
    exact_mod_cast hhalf
  by_cases hpos : 0 ≤ i
  · have himod : i % (256 : Int) ^ w = i := Int.emod_eq_of_lt hpos (by omega)
    rw [himod]
    constructor
    · omega
    · rw [intDec, if_pos (by omega)]
      omega
  · push_neg at hpos
    have himod : i % (256 : Int) ^ w = i + (256 : Int) ^ w := by
      have hself : (i + (256 : Int) ^ w * 1) % ((256 : Int) ^ w) = i % (256 : Int) ^ w :=
        Int.add_mul_emod_self_left i ((256 : Int) ^ w) 1
      rw [mul_one] at hself
      rw [← hself]
      exact Int.emod_eq_of_lt (by omega) (by omega)
    rw [himod]
    constructor
    · omega
    · rw [intDec, if_neg (by omega)]
      omega

theorem intDec_spec (w : Nat) (hw : 0 < w) (n : Nat) (hn : n < 256 ^ w) :
    intOk w (intDec w n) = true ∧ ((intDec w n) % ((256 : Int) ^ w)).toNat = n := by
  have hhalf := half_spec w hw
  have hcast : ((256 ^ w : Nat) : Int) = (256 : Int) ^ w := by push_cast; rfl
  rw [intDec]
  by_cases h : n < half w
  · rw [if_pos h]
    constructor
    · rw [intOk, Bool.and_eq_true, decide_eq_true_eq, decide_eq_true_eq]
      constructor <;> omega
    · rw [Int.emod_eq_of_lt (by omega) (by omega)]
      omega
  · rw [if_neg h]
    constructor
    · rw [intOk, Bool.and_eq_true, decide_eq_true_eq, decide_eq_true_eq]
      constructor <;> omega
    · have himod : ((n : Int) - (256 : Int) ^ w) % (256 : Int) ^ w =
          (n : Int) - (256 : Int) ^ w + (256 : Int) ^ w := by
        have hself : ((n : Int) - (256 : Int) ^ w + (256 : Int) ^ w * 1) % ((256 : Int) ^ w) =
            ((n : Int) - (256 : Int) ^ w) % (256 : Int) ^ w :=
          Int.add_mul_emod_self_left ((n : Int) - (256 : Int) ^ w) ((256 : Int) ^ w) 1
        rw [mul_one] at hself
        rw [← hself]
        exact Int.emod_eq_of_lt (by omega) (by omega)
      rw [himod]
      omega

/-- Byte-lexicographic strict order on encoded forms; the wire order
of set elements and mapping keys. -/
def byteLt : List Nat → List Nat → Bool
  | _, [] => false
  | [], _ :: _ => true
  | a :: as, b :: bs => decide (a < b) || (a == b && byteLt as bs)

/-- One step of the ascending-order check against the previous encoded
element, if any. -/
def ascOk : Option (List Nat) → List Nat → Bool
  | none, _ => true
  | some p, s => byteLt p s

/-- The encoded elements form a strictly ascending chain after the
given predecessor. -/
def chainAsc : Option (List Nat) → List (List Nat) → Bool
  | _, [] => true
  | prev, bs :: rest => ascOk prev bs && chainAsc (some bs) rest

/-- Number of values in a value list. -/
def lenVL : AuxValList → Nat
  | .nil => 0
  | .cons _ vs => lenVL vs + 1

/-- Number of pairs in a pair list. -/
def lenPL : AuxPairList → Nat
  | .nil => 0
  | .cons _ _ ps => lenPL ps + 1

/-- Concatenation of encoded elements. -/
def joinL : List (List Nat) → List Nat
  | [] => []
  | bs :: rest => bs ++ joinL rest

/-- Concatenation of encoded key/value pairs. -/
def joinKV : List (List Nat × List Nat) → List Nat
  | [] => []
  | (kb, vb) :: rest => kb ++ (vb ++ joinKV rest)

/-- Member lookup in a type list (variant alternative by tag). -/
def nthTy : AuxTyList → Nat → Option AuxTy
  | .nil, _ => none
  | .cons t _, 0 => some t
  | .cons _ ts, n + 1 => nthTy ts n

theorem takeN_append (l1 l2 : List Nat) (n : Nat) (h : l1.length = n) :
    (l1 ++ l2).take n = l1 := by
  rw [← h]
  exact List.take_left l1 l2

theorem dropN_append (l1 l2 : List Nat) (n : Nat) (h : l1.length = n) :
    (l1 ++ l2).drop n = l2 := by
  rw [← h]
  exact List.drop_left l1 l2

/-- Decode a w-byte little-endian unsigned word into a value. -/
def decUIntW (w : Nat) (bs : List Nat) : Option (AuxVal × List Nat) :=
  if w ≤ bs.length ∧ bytesOk (bs.take w) = true then
    some (.vUInt (leVal (bs.take w)), bs.drop w)
  else none

/-- Decode a w-byte little-endian two's-complement word into a value. -/
def decIntW (w : Nat) (bs : List Nat) : Option (AuxVal × List Nat) :=
  if w ≤ bs.length ∧ bytesOk (bs.take w) = true then
    some (.vInt (intDec w (leVal (bs.take w))), bs.drop w)
  else none

mutual

/-- Modelled from the spec: encode a typed value to its §4.7 wire
form; the result is absent when the value does not fit the type (that
is the meaning of a value of type T in the model). -/
def encA : AuxTy → AuxVal → Option (List Nat)
  | .boolTy, .vBool b => some [if b then 1 else 0]
  | .uint8Ty, .vUInt n => if n < 256 ^ 1 then some (natLE 1 n) else none
  | .uint16Ty, .vUInt n => if n < 256 ^ 2 then some (natLE 2 n) else none
  | .uint32Ty, .vUInt n => if n < 256 ^ 4 then some (natLE 4 n) else none
  | .uint64Ty, .vUInt n => if n < 256 ^ 8 then some (natLE 8 n) else none
  | .addrTy, .vUInt n => if n < 256 ^ 8 then some (natLE 8 n) else none
  | .floatTy, .vUInt n => if n < 256 ^ 4 then some (natLE 4 n) else none
  | .doubleTy, .vUInt n => if n < 256 ^ 8 then some (natLE 8 n) else none
  | .int8Ty, .vInt i => if intOk 1 i then some (intEnc 1 i) else none
  | .int16Ty, .vInt i => if intOk 2 i then some (intEnc 2 i) else none
  | .int32Ty, .vInt i => if intOk 4 i then some (intEnc 4 i) else none
  | .int64Ty, .vInt i => if intOk 8 i then some (intEnc 8 i) else none
  | .stringTy, .vString bs =>
    if bytesOk bs = true ∧ bs.length < 256 ^ 8 then some (natLE 8 bs.length ++ bs) else none
  | .uuidTy, .vUuid bs => if bytesOk bs = true ∧ bs.length = 16 then some bs else none
  | .offsetTy, .vOffset u d =>
    if bytesOk u = true ∧ u.length = 16 ∧ d < 256 ^ 8 then some (u ++ natLE 8 d) else none
  | .seqTy t, .vList l =>
    match encList t l with
    | some bss => if lenVL l < 256 ^ 8 then some (natLE 8 (lenVL l) ++ joinL bss) else none
    | none => none
  | .setTy t, .vList l =>
    match encList t l with
    | some bss =>
      if lenVL l < 256 ^ 8 ∧ chainAsc none bss = true then
        some (natLE 8 (lenVL l) ++ joinL bss)
      else none
    | none => none
  | .mapTy kt vt, .vMap ps =>
    match encPairs kt vt ps with
    | some kvs =>
      if lenPL ps < 256 ^ 8 ∧ chainAsc none (kvs.map Prod.fst) = true then
        some (natLE 8 (lenPL ps) ++ joinKV kvs)
      else none
    | none => none
  | .tupleTy ts, .vList l => encFields ts l
  | .variantTy ts, .vVariant tag v =>
    match nthTy ts tag with
    | some t =>
      match encA t v with
      | some bs => if tag < 256 ^ 8 then some (natLE 8 tag ++ bs) else none
      | none => none
    | none => none
  | _, _ => none

/-- Per-element encodings of a homogeneous value list. -/
def encList : AuxTy → AuxValList → Option (List (List Nat))
  | _, .nil => some []
  | t, .cons v vs =>
    match encA t v with
    | some bs =>
      match encList t vs with
      | some bss => some (bs :: bss)
      | none => none
    | none => none

/-- Per-pair encodings of a mapping's contents. -/
def encPairs : AuxTy → AuxTy → AuxPairList → Option (List (List Nat × List Nat))
  | _, _, .nil => some []
  | kt, vt, .cons k v ps =>
    match encA kt k with
    | some kb =>
      match encA vt v with
      | some vb =>
        match encPairs kt vt ps with
        | some kvs => some ((kb, vb) :: kvs)
        | none => none
      | none => none
    | none => none

/-- Concatenated field encodings of a tuple (no count prefix). -/
def encFields : AuxTyList → AuxValList → Option (List Nat)
  | .nil, .nil => some []
  | .cons t ts, .cons v vs =>
    match encA t v with
    | some bs =>
      match encFields ts vs with
      | some rest => some (bs ++ rest)
      | none => none
    | none => none
  | .nil, .cons _ _ => none
  | .cons _ _, .nil => none

end

mutual

/-- Structural measure of a type, used to show decoding terminates. -/
def measA : AuxTy → Nat
  | .seqTy t => measA t + 1
  | .setTy t => measA t + 1
  | .mapTy kt vt => measA kt + measA vt + 1
  | .tupleTy ts => measL ts + 1
  | .variantTy ts => measL ts + 1
  | _ => 1

/-- Structural measure of a type list. -/
def measL : AuxTyList → Nat
  | .nil => 1
  | .cons t ts => measA t + measL ts

end

theorem measA_pos (t : AuxTy) : 1 ≤ measA t := by
  cases t <;> simp [measA] <;> omega

theorem measL_pos (ts : AuxTyList) : 1 ≤ measL ts := by
  cases ts with
  | nil => exact le_refl 1
  | cons t ts =>
    have := measA_pos t
    rw [measL]
    omega

theorem nthTy_measA : ∀ (ts : AuxTyList) (i : Nat) (t : AuxTy),
    nthTy ts i = some t → measA t < measL ts
  | .nil, _, _, h => Option.noConfusion h
  | .cons hd tl, 0, t, h => by
    rw [nthTy] at h
    rw [← Option.some.inj h, measL]
    have := measL_pos tl
    omega
  | .cons hd tl, i + 1, t, h => by
    rw [nthTy] at h
    have h2 := nthTy_measA tl i t h
    have h3 := measA_pos hd
    rw [measL]
    omega

mutual

/-- Modelled from the spec: strict decode of one value of the given
type from the front of a byte sequence, returning the remainder. -/
def decA : AuxTy → List Nat → Option (AuxVal × List Nat)
  | .boolTy, bs =>
    match bs with
    | 0 :: rest => some (.vBool false, rest)
    | 1 :: rest => some (.vBool true, rest)
    | _ => none
  | .uint8Ty, bs => decUIntW 1 bs
  | .uint16Ty, bs => decUIntW 2 bs
  | .uint32Ty, bs => decUIntW 4 bs
  | .uint64Ty, bs => decUIntW 8 bs
  | .addrTy, bs => decUIntW 8 bs
  | .floatTy, bs => decUIntW 4 bs
  | .doubleTy, bs => decUIntW 8 bs
  | .int8Ty, bs => decIntW 1 bs
  | .int16Ty, bs => decIntW 2 bs
  | .int32Ty, bs => decIntW 4 bs
  | .int64Ty, bs => decIntW 8 bs
  | .stringTy, bs =>
    if 8 ≤ bs.length ∧ bytesOk (bs.take 8) = true then
      if leVal (bs.take 8) ≤ (bs.drop 8).length ∧
          bytesOk ((bs.drop 8).take (leVal (bs.take 8))) = true then
        some (.vString ((bs.drop 8).take (leVal (bs.take 8))),
          (bs.drop 8).drop (leVal (bs.take 8)))
      else none
    else none
  | .uuidTy, bs =>
    if 16 ≤ bs.length ∧ bytesOk (bs.take 16) = true then
      some (.vUuid (bs.take 16), bs.drop 16)
    else none
  | .offsetTy, bs =>
    if 16 ≤ bs.length ∧ bytesOk (bs.take 16) = true then
      if 8 ≤ (bs.drop 16).length ∧ bytesOk ((bs.drop 16).take 8) = true then
        some (.vOffset (bs.take 16) (leVal ((bs.drop 16).take 8)), (bs.drop 16).drop 8)
      else none
    else none
  | .seqTy t, bs =>
    if 8 ≤ bs.length ∧ bytesOk (bs.take 8) = true then
      match decList t (leVal (bs.take 8)) (bs.drop 8) with
      | some (l, rest) => some (.vList l, rest)
      | none => none
    else none
  | .setTy t, bs =>
    if 8 ≤ bs.length ∧ bytesOk (bs.take 8) = true then
      match decSetList t (leVal (bs.take 8)) none (bs.drop 8) with
      | some (l, rest) => some (.vList l, rest)
      | none => none
    else none
  | .mapTy kt vt, bs =>
    if 8 ≤ bs.length ∧ bytesOk (bs.take 8) = true then
      match decPairs kt vt (leVal (bs.take 8)) none (bs.drop 8) with
      | some (ps, rest) => some (.vMap ps, rest)
      | none => none
    else none
  | .tupleTy ts, bs =>
    match decFields ts bs with
    | some (l, rest) => some (.vList l, rest)
    | none => none
  | .variantTy ts, bs =>
    if 8 ≤ bs.length ∧ bytesOk (bs.take 8) = true then
      match h : nthTy ts (leVal (bs.take 8)) with
      | some t =>
        match decA t (bs.drop 8) with
        | some (v, rest) => some (.vVariant (leVal (bs.take 8)) v, rest)
        | none => none
      | none => none
    else none

termination_by t bs => (measA t, 0)
decreasing_by
  all_goals simp_wf
  all_goals try simp only [measA, measL]
  all_goals first
    | (apply Prod.Lex.right
       omega)
    | (apply Prod.Lex.left
       first
        | omega
        | exact lt_add_of_pos_right _ (measA_pos _)
        | exact lt_add_of_pos_right _ (measL_pos _)
        | exact lt_add_of_pos_left _ (measA_pos _)
        | (rename_i h
           exact Nat.lt_succ_of_lt (nthTy_measA _ _ _ h)))

/-- Decode exactly n sequence elements. -/
def decList : AuxTy → Nat → List Nat → Option (AuxValList × List Nat)
  | _, 0, bs => some (.nil, bs)
  | t, n + 1, bs =>
    match decA t bs with
    | some (v, rest) =>
      match decList t n rest with
      | some (vs, rest2) => some (.cons v vs, rest2)
      | none => none
    | none => none

termination_by t n bs => (measA t, n + 1)
decreasing_by
  all_goals simp_wf
  all_goals try simp only [measA, measL]
  all_goals first
    | (apply Prod.Lex.right
       omega)
    | (apply Prod.Lex.left
       first
        | omega
        | exact lt_add_of_pos_right _ (measA_pos _)
        | exact lt_add_of_pos_right _ (measL_pos _)
        | exact lt_add_of_pos_left _ (measA_pos _)
        | (rename_i h
           exact Nat.lt_succ_of_lt (nthTy_measA _ _ _ h)))

/-- Decode exactly n set elements, insisting that each element's
canonical encoding is strictly above the previous one (this rejects
duplicates and out-of-order data; for decodable bytes the canonical
encoding coincides with the consumed wire segment). -/
def decSetList : AuxTy → Nat → Option (List Nat) → List Nat →
    Option (AuxValList × List Nat)
  | _, 0, _, bs => some (.nil, bs)
  | t, n + 1, prev, bs =>
    match decA t bs with
    | some (v, rest) =>
      match encA t v with
      | some seg =>
        if ascOk prev seg = true then
          match decSetList t n (some seg) rest with
          | some (vs, rest2) => some (.cons v vs, rest2)
          | none => none
        else none
      | none => none
    | none => none

termination_by t n prev bs => (measA t, n + 1)
decreasing_by
  all_goals simp_wf
  all_goals try simp only [measA, measL]
  all_goals first
    | (apply Prod.Lex.right
       omega)
    | (apply Prod.Lex.left
       first
        | omega
        | exact lt_add_of_pos_right _ (measA_pos _)
        | exact lt_add_of_pos_right _ (measL_pos _)
        | exact lt_add_of_pos_left _ (measA_pos _)
        | (rename_i h
           exact Nat.lt_succ_of_lt (nthTy_measA _ _ _ h)))

/-- Decode exactly n mapping pairs with strictly ascending keys. -/
def decPairs : AuxTy → AuxTy → Nat → Option (List Nat) → List Nat →
    Option (AuxPairList × List Nat)
  | _, _, 0, _, bs => some (.nil, bs)
  | kt, vt, n + 1, prev, bs =>
    match decA kt bs with
    | some (k, r1) =>
      match encA kt k with
      | some kseg =>
        if ascOk prev kseg = true then
          match decA vt r1 with
          | some (v, r2) =>
            match decPairs kt vt n (some kseg) r2 with
            | some (ps, r3) => some (.cons k v ps, r3)
            | none => none
          | none => none
        else none
      | none => none
    | none => none

termination_by kt vt n prev bs => (measA kt + measA vt, n + 1)
decreasing_by
  all_goals simp_wf
  all_goals try simp only [measA, measL]
  all_goals first
    | (apply Prod.Lex.right
       omega)
    | (apply Prod.Lex.left
       first
        | omega
        | exact lt_add_of_pos_right _ (measA_pos _)
        | exact lt_add_of_pos_right _ (measL_pos _)
        | exact lt_add_of_pos_left _ (measA_pos _)
        | (rename_i h
           exact Nat.lt_succ_of_lt (nthTy_measA _ _ _ h)))

/-- Decode the fields of a tuple, one per member type. -/
def decFields : AuxTyList → List Nat → Option (AuxValList × List Nat)
  | .nil, bs => some (.nil, bs)
  | .cons t ts, bs =>
    match decA t bs with
    | some (v, rest) =>
      match decFields ts rest with
      | some (vs, rest2) => some (.cons v vs, rest2)
      | none => none
    | none => none

termination_by ts bs => (measL ts, 0)
decreasing_by
  all_goals simp_wf
  all_goals try simp only [measA, measL]
  all_goals first
    | (apply Prod.Lex.right
       omega)
    | (apply Prod.Lex.left
       first
        | omega
        | exact lt_add_of_pos_right _ (measA_pos _)
        | exact lt_add_of_pos_right _ (measL_pos _)
        | exact lt_add_of_pos_left _ (measA_pos _)
        | (rename_i h
           exact Nat.lt_succ_of_lt (nthTy_measA _ _ _ h)))

end

theorem decUIntW_natLE (w n : Nat) (h : n < 256 ^ w) (rest : List Nat) :
    decUIntW w (natLE w n ++ rest) = some (.vUInt n, rest) := by
  have hlen := natLE_length w n
  rw [decUIntW, takeN_append _ _ _ hlen, dropN_append _ _ _ hlen]
  rw [if_pos ⟨by rw [List.length_append, hlen]; omega, natLE_bytesOk w n⟩]
  rw [leVal_natLE w n h]

theorem decUIntW_inv (w : Nat) (bs : List Nat) (v : AuxVal) (rest : List Nat)
    (h : decUIntW w bs = some (v, rest)) :
    ∃ n, v = .vUInt n ∧ n < 256 ^ w ∧ bs = natLE w n ++ rest := by
  rw [decUIntW] at h
  by_cases hc : w ≤ bs.length ∧ bytesOk (bs.take w) = true
  · rw [if_pos hc] at h
    obtain ⟨hcl, hcb⟩ := hc
    have hp := Option.some.inj h
    rw [Prod.mk.injEq] at hp
    have hlt : (bs.take w).length = w := by rw [List.length_take]; omega
    refine ⟨leVal (bs.take w), hp.1.symm, leVal_lt w (bs.take w) hlt hcb, ?_⟩
    rw [natLE_leVal w (bs.take w) hlt hcb, ← hp.2]
    exact (List.take_append_drop w bs).symm
  · rw [if_neg hc] at h
    exact Option.noConfusion h

theorem decIntW_intEnc (w : Nat) (hw : 0 < w) (i : Int) (h : intOk w i = true)
    (rest : List Nat) : decIntW w (intEnc w i ++ rest) = some (.vInt i, rest) := by
  obtain ⟨hlt, hdec⟩ := intEnc_spec w hw i h
  rw [intEnc]
  have hlen := natLE_length w ((i % ((256 : Int) ^ w)).toNat)
  rw [decIntW, takeN_append _ _ _ hlen, dropN_append _ _ _ hlen]
  rw [if_pos ⟨by rw [List.length_append, hlen]; omega, natLE_bytesOk w _⟩]
  rw [leVal_natLE w _ hlt, hdec]

theorem decIntW_inv (w : Nat) (hw : 0 < w) (bs : List Nat) (v : AuxVal) (rest : List Nat)
    (h : decIntW w bs = some (v, rest)) :
    ∃ i, v = .vInt i ∧ intOk w i = true ∧ bs = intEnc w i ++ rest := by
  rw [decIntW] at h
  by_cases hc : w ≤ bs.length ∧ bytesOk (bs.take w) = true
  · rw [if_pos hc] at h
    obtain ⟨hcl, hcb⟩ := hc
    have hp := Option.some.inj h
    rw [Prod.mk.injEq] at hp
    have hlt : (bs.take w).length = w := by rw [List.length_take]; omega
    have hval := leVal_lt w (bs.take w) hlt hcb
    obtain ⟨hok, hved⟩ := intDec_spec w hw (leVal (bs.take w)) hval
    refine ⟨intDec w (leVal (bs.take w)), hp.1.symm, hok, ?_⟩
    rw [intEnc, hved, natLE_leVal w (bs.take w) hlt hcb, ← hp.2]
    exact (List.take_append_drop w bs).symm
  · rw [if_neg hc] at h
    exact Option.noConfusion h

mutual

/-- Direction 1 of the AuxData round trip: decoding an encoded value
consumes exactly the encoding and returns the value. -/
theorem encA_decA : ∀ (t : AuxTy) (v : AuxVal) (bs : List Nat),
    encA t v = some bs → ∀ rest, decA t (bs ++ rest) = some (v, rest)
  | .boolTy, v, bs, h, rest => by
    cases v
    case vBool b =>
      simp only [encA] at h
      rw [← Option.some.inj h]
      cases b
      · show decA .boolTy (0 :: rest) = some (.vBool false, rest)
        simp [decA]
      · show decA .boolTy (1 :: rest) = some (.vBool true, rest)
        simp [decA]
    all_goals simp only [encA] at h
    all_goals exact Option.noConfusion h
  | .uint8Ty, v, bs, h, rest => by
    cases v
    case vUInt n =>
      simp only [encA] at h
      by_cases hg : n < 256 ^ 1
      · rw [if_pos hg] at h
        rw [← Option.some.inj h]
        simp only [decA]
        exact decUIntW_natLE 1 n hg rest
      · rw [if_neg hg] at h
        exact Option.noConfusion h
    all_goals simp only [encA] at h
    all_goals exact Option.noConfusion h
  | .uint16Ty, v, bs, h, rest => by
    cases v
    case vUInt n =>
      simp only [encA] at h
      by_cases hg : n < 256 ^ 2
      · rw [if_pos hg] at h
        rw [← Option.some.inj h]
        simp only [decA]
        exact decUIntW_natLE 2 n hg rest
      · rw [if_neg hg] at h
        exact Option.noConfusion h
    all_goals simp only [encA] at h
    all_goals exact Option.noConfusion h
  | .uint32Ty, v, bs, h, rest => by
    cases v
    case vUInt n =>
      simp only [encA] at h
      by_cases hg : n < 256 ^ 4
      · rw [if_pos hg] at h
        rw [← Option.some.inj h]
        simp only [decA]
        exact decUIntW_natLE 4 n hg rest
      · rw [if_neg hg] at h
        exact Option.noConfusion h
    all_goals simp only [encA] at h
    all_goals exact Option.noConfusion h
  | .uint64Ty, v, bs, h, rest => by
    cases v
    case vUInt n =>
      simp only [encA] at h
      by_cases hg : n < 256 ^ 8
      · rw [if_pos hg] at h
        rw [← Option.some.inj h]
        simp only [decA]
        exact decUIntW_natLE 8 n hg rest
      · rw [if_neg hg] at h
        exact Option.noConfusion h
    all_goals simp only [encA] at h
    all_goals exact Option.noConfusion h
  | .addrTy, v, bs, h, rest => by
    cases v
    case vUInt n =>
      simp only [encA] at h
      by_cases hg : n < 256 ^ 8
      · rw [if_pos hg] at h
        rw [← Option.some.inj h]
        simp only [decA]
        exact decUIntW_natLE 8 n hg rest
      · rw [if_neg hg] at h
        exact Option.noConfusion h
    all_goals simp only [encA] at h
    all_goals exact Option.noConfusion h
  | .floatTy, v, bs, h, rest => by
    cases v
    case vUInt n =>
      simp only [encA] at h
      by_cases hg : n < 256 ^ 4
      · rw [if_pos hg] at h
        rw [← Option.some.inj h]
        simp only [decA]
        exact decUIntW_natLE 4 n hg rest
      · rw [if_neg hg] at h
        exact Option.noConfusion h
    all_goals simp only [encA] at h
    all_goals exact Option.noConfusion h
  | .doubleTy, v, bs, h, rest => by
    cases v
    case vUInt n =>
      simp only [encA] at h
      by_cases hg : n < 256 ^ 8
      · rw [if_pos hg] at h
        rw [← Option.some.inj h]
        simp only [decA]
        exact decUIntW_natLE 8 n hg rest
      · rw [if_neg hg] at h
        exact Option.noConfusion h
    all_goals simp only [encA] at h
    all_goals exact Option.noConfusion h
  | .int8Ty, v, bs, h, rest => by
    cases v
    case vInt i =>
      simp only [encA] at h
      by_cases hg : intOk 1 i = true
      · rw [if_pos hg] at h
        rw [← Option.some.inj h]
        simp only [decA]
        exact decIntW_intEnc 1 (by omega) i hg rest
      · rw [if_neg hg] at h
        exact Option.noConfusion h
    all_goals simp only [encA] at h
    all_goals exact Option.noConfusion h
  | .int16Ty, v, bs, h, rest => by
    cases v
    case vInt i =>
      simp only [encA] at h
      by_cases hg : intOk 2 i = true
      · rw [if_pos hg] at h
        rw [← Option.some.inj h]
        simp only [decA]
        exact decIntW_intEnc 2 (by omega) i hg rest
      · rw [if_neg hg] at h
        exact Option.noConfusion h
    all_goals simp only [encA] at h
    all_goals exact Option.noConfusion h
  | .int32Ty, v, bs, h, rest => by
    cases v
    case vInt i =>
      simp only [encA] at h
      by_cases hg : intOk 4 i = true
      · rw [if_pos hg] at h
        rw [← Option.some.inj h]
        simp only [decA]
        exact decIntW_intEnc 4 (by omega) i hg rest
      · rw [if_neg hg] at h
        exact Option.noConfusion h
    all_goals simp only [encA] at h
    all_goals exact Option.noConfusion h
  | .int64Ty, v, bs, h, rest => by
    cases v
    case vInt i =>
      simp only [encA] at h
      by_cases hg : intOk 8 i = true
      · rw [if_pos hg] at h
        rw [← Option.some.inj h]
        simp only [decA]
        exact decIntW_intEnc 8 (by omega) i hg rest
      · rw [if_neg hg] at h
        exact Option.noConfusion h
    all_goals simp only [encA] at h
    all_goals exact Option.noConfusion h
  | .stringTy, v, bs, h, rest => by
    cases v
    case vString sb =>
      simp only [encA] at h
      by_cases hg : bytesOk sb = true ∧ sb.length < 256 ^ 8
      · rw [if_pos hg] at h
        obtain ⟨hb, hL⟩ := hg
        rw [← Option.some.inj h]
        rw [List.append_assoc]
        simp only [decA]
        have hlen8 := natLE_length 8 sb.length
        rw [takeN_append _ _ _ hlen8, dropN_append _ _ _ hlen8]
        rw [if_pos ⟨by rw [List.length_append, hlen8]; omega, natLE_bytesOk 8 _⟩]
        rw [leVal_natLE 8 sb.length hL]
        rw [takeN_append sb rest sb.length rfl, dropN_append sb rest sb.length rfl]
        rw [if_pos ⟨by rw [List.length_append]; omega, hb⟩]
      · rw [if_neg hg] at h
        exact Option.noConfusion h
    all_goals simp only [encA] at h
    all_goals exact Option.noConfusion h
  | .uuidTy, v, bs, h, rest => by
    cases v
    case vUuid ub =>
      simp only [encA] at h
      by_cases hg : bytesOk ub = true ∧ ub.length = 16
      · rw [if_pos hg] at h
        rw [← Option.some.inj h]
        simp only [decA]
        rw [takeN_append ub rest 16 hg.2, dropN_append ub rest 16 hg.2]
        rw [if_pos ⟨by rw [List.length_append, hg.2]; omega, hg.1⟩]
      · rw [if_neg hg] at h
        exact Option.noConfusion h
    all_goals simp only [encA] at h
    all_goals exact Option.noConfusion h
  | .offsetTy, v, bs, h, rest => by
    cases v
    case vOffset u d =>
      simp only [encA] at h
      by_cases hg : bytesOk u = true ∧ u.length = 16 ∧ d < 256 ^ 8
      · rw [if_pos hg] at h
        rw [← Option.some.inj h]
        rw [List.append_assoc]
        simp only [decA]
        rw [takeN_append u _ 16 hg.2.1, dropN_append u _ 16 hg.2.1]
        rw [if_pos ⟨by rw [List.length_append, hg.2.1]; omega, hg.1⟩]
        have hlen8 := natLE_length 8 d
        rw [takeN_append _ _ _ hlen8, dropN_append _ _ _ hlen8]
        rw [if_pos ⟨by rw [List.length_append, hlen8]; omega, natLE_bytesOk 8 _⟩]
        rw [leVal_natLE 8 d hg.2.2]
      · rw [if_neg hg] at h
        exact Option.noConfusion h
    all_goals simp only [encA] at h
    all_goals exact Option.noConfusion h
  | .seqTy t, v, bs, h, rest => by
    cases v
    case vList l =>
      simp only [encA] at h
      cases henc : encList t l with
      | none => rw [henc] at h; exact Option.noConfusion h
      | some bss =>
        rw [henc] at h
        have h2 : (if lenVL l < 256 ^ 8 then some (natLE 8 (lenVL l) ++ joinL bss)
            else none) = some bs := h
        by_cases hg : lenVL l < 256 ^ 8
        · rw [if_pos hg] at h2
          rw [← Option.some.inj h2]
          rw [List.append_assoc]
          simp only [decA]
          have hlen8 := natLE_length 8 (lenVL l)
          rw [takeN_append _ _ _ hlen8, dropN_append _ _ _ hlen8]
          rw [if_pos ⟨by rw [List.length_append, hlen8]; omega, natLE_bytesOk 8 _⟩]
          rw [leVal_natLE 8 (lenVL l) hg]
          simp only [encList_decList t l bss henc rest]
        · rw [if_neg hg] at h2
          exact Option.noConfusion h2
    all_goals simp only [encA] at h
    all_goals exact Option.noConfusion h
  | .setTy t, v, bs, h, rest => by
    cases v
    case vList l =>
      simp only [encA] at h
      cases henc : encList t l with
      | none => rw [henc] at h; exact Option.noConfusion h
      | some bss =>
        rw [henc] at h
        have h2 : (if lenVL l < 256 ^ 8 ∧ chainAsc none bss = true then
            some (natLE 8 (lenVL l) ++ joinL bss) else none) = some bs := h
        by_cases hg : lenVL l < 256 ^ 8 ∧ chainAsc none bss = true
        · rw [if_pos hg] at h2
          rw [← Option.some.inj h2]
          rw [List.append_assoc]
          simp only [decA]
          have hlen8 := natLE_length 8 (lenVL l)
          rw [takeN_append _ _ _ hlen8, dropN_append _ _ _ hlen8]
          rw [if_pos ⟨by rw [List.length_append, hlen8]; omega, natLE_bytesOk 8 _⟩]
          rw [leVal_natLE 8 (lenVL l) hg.1]
          simp only [encList_decSetList t l bss henc none hg.2 rest]
        · rw [if_neg hg] at h2
          exact Option.noConfusion h2
    all_goals simp only [encA] at h
    all_goals exact Option.noConfusion h
  | .mapTy kt vt, v, bs, h, rest => by
    cases v
    case vMap ps =>
      simp only [encA] at h
      cases henc : encPairs kt vt ps with
      | none => rw [henc] at h; exact Option.noConfusion h
      | some kvs =>
        rw [henc] at h
        have h2 : (if lenPL ps < 256 ^ 8 ∧ chainAsc none (kvs.map Prod.fst) = true then
            some (natLE 8 (lenPL ps) ++ joinKV kvs) else none) = some bs := h
        by_cases hg : lenPL ps < 256 ^ 8 ∧ chainAsc none (kvs.map Prod.fst) = true
        · rw [if_pos hg] at h2
          rw [← Option.some.inj h2]
          rw [List.append_assoc]
          simp only [decA]
          have hlen8 := natLE_length 8 (lenPL ps)
          rw [takeN_append _ _ _ hlen8, dropN_append _ _ _ hlen8]
          rw [if_pos ⟨by rw [List.length_append, hlen8]; omega, natLE_bytesOk 8 _⟩]
          rw [leVal_natLE 8 (lenPL ps) hg.1]
          simp only [encPairs_decPairs kt vt ps kvs henc none hg.2 rest]
        · rw [if_neg hg] at h2
          exact Option.noConfusion h2
    all_goals simp only [encA] at h
    all_goals exact Option.noConfusion h
  | .tupleTy ts, v, bs, h, rest => by
    cases v
    case vList l =>
      simp only [encA] at h
      simp only [decA]
      simp only [encFields_decFields ts l bs h rest]
    all_goals simp only [encA] at h
    all_goals exact Option.noConfusion h
  | .variantTy ts, v, bs, h, rest => by
    cases v
    case vVariant tag v0 =>
      simp only [encA] at h
      cases hn : nthTy ts tag with
      | none => rw [hn] at h; exact Option.noConfusion h
      | some t0 =>
        rw [hn] at h
        have h2 : (match encA t0 v0 with
          | some vb => if tag < 256 ^ 8 then some (natLE 8 tag ++ vb) else none
          | none => none) = some bs := h
        cases he : encA t0 v0 with
        | none => rw [he] at h2; exact Option.noConfusion h2
        | some vb =>
          rw [he] at h2
          have h3 : (if tag < 256 ^ 8 then some (natLE 8 tag ++ vb) else none) =
              some bs := h2
          by_cases hg : tag < 256 ^ 8
          · rw [if_pos hg] at h3
            rw [← Option.some.inj h3]
            rw [List.append_assoc]
            simp only [decA]
            have hlen8 := natLE_length 8 tag
            rw [takeN_append _ _ _ hlen8, dropN_append _ _ _ hlen8]
            rw [if_pos ⟨by rw [List.length_append, hlen8]; omega, natLE_bytesOk 8 _⟩]
            rw [leVal_natLE 8 tag hg]
            split
            · rename_i t1 hteq
              rw [hn] at hteq
              cases Option.some.inj hteq
              simp only [encA_decA t0 v0 vb he rest]
            · rename_i hteq
              rw [hn] at hteq
              exact Option.noConfusion hteq
          · rw [if_neg hg] at h3
            exact Option.noConfusion h3
    all_goals simp only [encA] at h
    all_goals exact Option.noConfusion h

/-- Direction 1 for sequences: the concatenated element encodings
decode back to the same list, element count first. -/
theorem encList_decList : ∀ (t : AuxTy) (l : AuxValList) (bss : List (List Nat)),
    encList t l = some bss → ∀ rest,
    decList t (lenVL l) (joinL bss ++ rest) = some (l, rest)
  | t, .nil, bss, h, rest => by
    simp only [encList] at h
    rw [← Option.some.inj h]
    show decList t 0 (joinL [] ++ rest) = some (.nil, rest)
    simp only [joinL, List.nil_append, decList]
  | t, .cons v vs, bss, h, rest => by
    simp only [encList] at h
    cases he : encA t v with
    | none => rw [he] at h; exact Option.noConfusion h
    | some b0 =>
      rw [he] at h
      have h2 : (match encList t vs with
        | some bss0 => some (b0 :: bss0)
        | none => none) = some bss := h
      cases hes : encList t vs with
      | none => rw [hes] at h2; exact Option.noConfusion h2
      | some bss0 =>
        rw [hes] at h2
        rw [← Option.some.inj h2]
        show decList t (lenVL vs + 1) (joinL (b0 :: bss0) ++ rest) = some (.cons v vs, rest)
        simp only [joinL]
        rw [List.append_assoc]
        simp only [decList]
        simp only [encA_decA t v b0 he (joinL bss0 ++ rest)]
        simp only [encList_decList t vs bss0 hes rest]

/-- Direction 1 for sets: with the encodings strictly ascending after
the given predecessor, the chained decode returns the same list. -/
theorem encList_decSetList : ∀ (t : AuxTy) (l : AuxValList) (bss : List (List Nat)),
    encList t l = some bss → ∀ (prev : Option (List Nat)), chainAsc prev bss = true →
    ∀ rest, decSetList t (lenVL l) prev (joinL bss ++ rest) = some (l, rest)
  | t, .nil, bss, h, prev, hchain, rest => by
    simp only [encList] at h
    rw [← Option.some.inj h]
    show decSetList t 0 prev (joinL [] ++ rest) = some (.nil, rest)
    simp only [joinL, List.nil_append, decSetList]
  | t, .cons v vs, bss, h, prev, hchain, rest => by
    simp only [encList] at h
    cases he : encA t v with
    | none => rw [he] at h; exact Option.noConfusion h
    | some b0 =>
      rw [he] at h
      have h2 : (match encList t vs with
        | some bss0 => some (b0 :: bss0)
        | none => none) = some bss := h
      cases hes : encList t vs with
      | none => rw [hes] at h2; exact Option.noConfusion h2
      | some bss0 =>
        rw [hes] at h2
        have hbss := Option.some.inj h2
        rw [← hbss] at hchain
        simp only [chainAsc, Bool.and_eq_true] at hchain
        obtain ⟨hasc, hrest⟩ := hchain
        rw [← hbss]
        show decSetList t (lenVL vs + 1) prev (joinL (b0 :: bss0) ++ rest) =
          some (.cons v vs, rest)
        simp only [joinL]
        rw [List.append_assoc]
        simp only [decSetList]
        simp only [encA_decA t v b0 he (joinL bss0 ++ rest)]
        simp only [he, hasc, if_true]
        simp only [encList_decSetList t vs bss0 hes (some b0) hrest rest]

/-- Direction 1 for mappings: pairs with strictly ascending encoded
keys decode back to the same pair list. -/
theorem encPairs_decPairs : ∀ (kt vt : AuxTy) (ps : AuxPairList)
    (kvs : List (List Nat × List Nat)), encPairs kt vt ps = some kvs →
    ∀ (prev : Option (List Nat)), chainAsc prev (kvs.map Prod.fst) = true →
    ∀ rest, decPairs kt vt (lenPL ps) prev (joinKV kvs ++ rest) = some (ps, rest)
  | kt, vt, .nil, kvs, h, prev, hchain, rest => by
    simp only [encPairs] at h
    rw [← Option.some.inj h]
    show decPairs kt vt 0 prev (joinKV [] ++ rest) = some (.nil, rest)
    simp only [joinKV, List.nil_append, decPairs]
  | kt, vt, .cons k v ps, kvs, h, prev, hchain, rest => by
    simp only [encPairs] at h
    cases hek : encA kt k with
    | none => rw [hek] at h; exact Option.noConfusion h
    | some kb =>
      rw [hek] at h
      have h2 : (match encA vt v with
        | some vb =>
          match encPairs kt vt ps with
          | some kvs0 => some ((kb, vb) :: kvs0)
          | none => none
        | none => none) = some kvs := h
      cases hev : encA vt v with
      | none => rw [hev] at h2; exact Option.noConfusion h2
      | some vb =>
        rw [hev] at h2
        have h3 : (match encPairs kt vt ps with
          | some kvs0 => some ((kb, vb) :: kvs0)
          | none => none) = some kvs := h2
        cases hes : encPairs kt vt ps with
        | none => rw [hes] at h3; exact Option.noConfusion h3
        | some kvs0 =>
          rw [hes] at h3
          have hkvs := Option.some.inj h3
          rw [← hkvs] at hchain
          simp only [List.map_cons, chainAsc, Bool.and_eq_true] at hchain
          obtain ⟨hasc, hrest⟩ := hchain
          rw [← hkvs]
          show decPairs kt vt (lenPL ps + 1) prev (joinKV ((kb, vb) :: kvs0) ++ rest) =
            some (.cons k v ps, rest)
          simp only [joinKV]
          rw [List.append_assoc, List.append_assoc]
          simp only [decPairs]
          simp only [encA_decA kt k kb hek (vb ++ (joinKV kvs0 ++ rest))]
          simp only [hek, hasc, if_true]
          simp only [encA_decA vt v vb hev (joinKV kvs0 ++ rest)]
          simp only [encPairs_decPairs kt vt ps kvs0 hes (some kb) hrest rest]

/-- Direction 1 for tuples: concatenated field encodings decode field
by field to the same value list. -/
theorem encFields_decFields : ∀ (ts : AuxTyList) (vs : AuxValList) (bs : List Nat),
    encFields ts vs = some bs → ∀ rest, decFields ts (bs ++ rest) = some (vs, rest)
  | .nil, vs, bs, h, rest => by
    cases vs
    case nil =>
      simp only [encFields] at h
      rw [← Option.some.inj h]
      simp only [decFields, List.nil_append]
    case cons v vs2 =>
      simp only [encFields] at h
      exact Option.noConfusion h
  | .cons t ts, vs, bs, h, rest => by
    cases vs
    case nil =>
      simp only [encFields] at h
      exact Option.noConfusion h
    case cons v vs2 =>
      simp only [encFields] at h
      cases he : encA t v with
      | none => rw [he] at h; exact Option.noConfusion h
      | some b0 =>
        rw [he] at h
        have h2 : (match encFields ts vs2 with
          | some rest0 => some (b0 ++ rest0)
          | none => none) = some bs := h
        cases hes : encFields ts vs2 with
        | none => rw [hes] at h2; exact Option.noConfusion h2
        | some rest0 =>
          rw [hes] at h2
          rw [← Option.some.inj h2]
          rw [List.append_assoc]
          simp only [decFields]
          simp only [encA_decA t v b0 he (rest0 ++ rest)]
          simp only [encFields_decFields ts vs2 rest0 hes rest]

end

mutual

/-- Direction 2 of the AuxData round trip: a successful decode splits
the input into a segment and the remainder, and encoding the decoded
value reproduces that segment exactly. -/
theorem decA_encA : ∀ (t : AuxTy) (bs : List Nat) (v : AuxVal) (rest : List Nat),
    decA t bs = some (v, rest) → ∃ front, bs = front ++ rest ∧ encA t v = some front
  | .boolTy, [], v, rest, h => by
    simp only [decA] at h
    exact Option.noConfusion h
  | .boolTy, 0 :: r, v, rest, h => by
    simp only [decA] at h
    have hp := Option.some.inj h
    rw [Prod.mk.injEq] at hp
    refine ⟨[0], ?_, ?_⟩
    · rw [hp.2]
      rfl
    · rw [← hp.1]
      simp [encA]
  | .boolTy, 1 :: r, v, rest, h => by
    simp only [decA] at h
    have hp := Option.some.inj h
    rw [Prod.mk.injEq] at hp
    refine ⟨[1], ?_, ?_⟩
    · rw [hp.2]
      rfl
    · rw [← hp.1]
      simp [encA]
  | .boolTy, (b + 2) :: r, v, rest, h => by
    simp only [decA] at h
    exact Option.noConfusion h
  | .uint8Ty, bs, v, rest, h => by
    simp only [decA] at h
    obtain ⟨n, hv, hn, hbs⟩ := decUIntW_inv 1 bs v rest h
    refine ⟨natLE 1 n, hbs, ?_⟩
    rw [hv]
    simp only [encA]
    rw [if_pos hn]
  | .uint16Ty, bs, v, rest, h => by
    simp only [decA] at h
    obtain ⟨n, hv, hn, hbs⟩ := decUIntW_inv 2 bs v rest h
    refine ⟨natLE 2 n, hbs, ?_⟩
    rw [hv]
    simp only [encA]
    rw [if_pos hn]
  | .uint32Ty, bs, v, rest, h => by
    simp only [decA] at h
    obtain ⟨n, hv, hn, hbs⟩ := decUIntW_inv 4 bs v rest h
    refine ⟨natLE 4 n, hbs, ?_⟩
    rw [hv]
    simp only [encA]
    rw [if_pos hn]
  | .uint64Ty, bs, v, rest, h => by
    simp only [decA] at h
    obtain ⟨n, hv, hn, hbs⟩ := decUIntW_inv 8 bs v rest h
    refine ⟨natLE 8 n, hbs, ?_⟩
    rw [hv]
    simp only [encA]
    rw [if_pos hn]
  | .addrTy, bs, v, rest, h => by
    simp only [decA] at h
    obtain ⟨n, hv, hn, hbs⟩ := decUIntW_inv 8 bs v rest h
    refine ⟨natLE 8 n, hbs, ?_⟩
    rw [hv]
    simp only [encA]
    rw [if_pos hn]
  | .floatTy, bs, v, rest, h => by
    simp only [decA] at h
    obtain ⟨n, hv, hn, hbs⟩ := decUIntW_inv 4 bs v rest h
    refine ⟨natLE 4 n, hbs, ?_⟩
    rw [hv]
    simp only [encA]
    rw [if_pos hn]
  | .doubleTy, bs, v, rest, h => by
    simp only [decA] at h
    obtain ⟨n, hv, hn, hbs⟩ := decUIntW_inv 8 bs v rest h
    refine ⟨natLE 8 n, hbs, ?_⟩
    rw [hv]
    simp only [encA]
    rw [if_pos hn]
  | .int8Ty, bs, v, rest, h => by
    simp only [decA] at h
    obtain ⟨i, hv, hok, hbs⟩ := decIntW_inv 1 (by omega) bs v rest h
    refine ⟨intEnc 1 i, hbs, ?_⟩
    rw [hv]
    simp only [encA]
    rw [if_pos hok]
  | .int16Ty, bs, v, rest, h => by
    simp only [decA] at h
    obtain ⟨i, hv, hok, hbs⟩ := decIntW_inv 2 (by omega) bs v rest h
    refine ⟨intEnc 2 i, hbs, ?_⟩
    rw [hv]
    simp only [encA]
    rw [if_pos hok]
  | .int32Ty, bs, v, rest, h => by
    simp only [decA] at h
    obtain ⟨i, hv, hok, hbs⟩ := decIntW_inv 4 (by omega) bs v rest h
    refine ⟨intEnc 4 i, hbs, ?_⟩
    rw [hv]
    simp only [encA]
    rw [if_pos hok]
  | .int64Ty, bs, v, rest, h => by
    simp only [decA] at h
    obtain ⟨i, hv, hok, hbs⟩ := decIntW_inv 8 (by omega) bs v rest h
    refine ⟨intEnc 8 i, hbs, ?_⟩
    rw [hv]
    simp only [encA]
    rw [if_pos hok]
  | .stringTy, bs, v, rest, h => by
    simp only [decA] at h
    by_cases h1 : 8 ≤ bs.length ∧ bytesOk (bs.take 8) = true
    · rw [if_pos h1] at h
      by_cases h2 : leVal (bs.take 8) ≤ (bs.drop 8).length ∧
          bytesOk ((bs.drop 8).take (leVal (bs.take 8))) = true
      · rw [if_pos h2] at h
        have hp := Option.some.inj h
        rw [Prod.mk.injEq] at hp
        obtain ⟨hv, hr⟩ := hp
        have hlen8 : (bs.take 8).length = 8 := by
          rw [List.length_take]
          omega
        have hsl : ((bs.drop 8).take (leVal (bs.take 8))).length = leVal (bs.take 8) := by
          rw [List.length_take]
          omega
        refine ⟨natLE 8 ((bs.drop 8).take (leVal (bs.take 8))).length ++
          (bs.drop 8).take (leVal (bs.take 8)), ?_, ?_⟩
        · rw [hsl, natLE_leVal 8 (bs.take 8) hlen8 h1.2, ← hr]
          rw [List.append_assoc, List.take_append_drop, List.take_append_drop]
        · rw [← hv]
          simp only [encA]
          have hlt : ((bs.drop 8).take (leVal (bs.take 8))).length < 256 ^ 8 := by
            rw [hsl]
            exact leVal_lt 8 (bs.take 8) hlen8 h1.2
          rw [if_pos ⟨h2.2, hlt⟩]
      · rw [if_neg h2] at h
        exact Option.noConfusion h
    · rw [if_neg h1] at h
      exact Option.noConfusion h
  | .uuidTy, bs, v, rest, h => by
    simp only [decA] at h
    by_cases h1 : 16 ≤ bs.length ∧ bytesOk (bs.take 16) = true
    · rw [if_pos h1] at h
      have hp := Option.some.inj h
      rw [Prod.mk.injEq] at hp
      obtain ⟨hv, hr⟩ := hp
      refine ⟨bs.take 16, ?_, ?_⟩
      · rw [← hr, List.take_append_drop]
      · rw [← hv]
        simp only [encA]
        rw [if_pos ⟨h1.2, by rw [List.length_take]; omega⟩]
    · rw [if_neg h1] at h
      exact Option.noConfusion h
  | .offsetTy, bs, v, rest, h => by
    simp only [decA] at h
    by_cases h1 : 16 ≤ bs.length ∧ bytesOk (bs.take 16) = true
    · rw [if_pos h1] at h
      by_cases h2 : 8 ≤ (bs.drop 16).length ∧ bytesOk ((bs.drop 16).take 8) = true
      · rw [if_pos h2] at h
        have hp := Option.some.inj h
        rw [Prod.mk.injEq] at hp
        obtain ⟨hv, hr⟩ := hp
        have hl8 : ((bs.drop 16).take 8).length = 8 := by
          rw [List.length_take]
          omega
        refine ⟨bs.take 16 ++ natLE 8 (leVal ((bs.drop 16).take 8)), ?_, ?_⟩
        · rw [natLE_leVal 8 ((bs.drop 16).take 8) hl8 h2.2, ← hr]
          rw [List.append_assoc, List.take_append_drop, List.take_append_drop]
        · rw [← hv]
          simp only [encA]
          rw [if_pos ⟨h1.2, by rw [List.length_take]; omega,
            leVal_lt 8 ((bs.drop 16).take 8) hl8 h2.2⟩]
      · rw [if_neg h2] at h
        exact Option.noConfusion h
    · rw [if_neg h1] at h
      exact Option.noConfusion h
  | .seqTy t, bs, v, rest, h => by
    simp only [decA] at h
    by_cases h1 : 8 ≤ bs.length ∧ bytesOk (bs.take 8) = true
    · rw [if_pos h1] at h
      cases hd : decList t (leVal (bs.take 8)) (bs.drop 8) with
      | none => rw [hd] at h; exact Option.noConfusion h
      | some p =>
        rw [hd] at h
        obtain ⟨l, r⟩ := p
        have h2 : some (AuxVal.vList l, r) = some (v, rest) := h
        have hp := Option.some.inj h2
        rw [Prod.mk.injEq] at hp
        obtain ⟨hv, hr⟩ := hp
        obtain ⟨hn, bss, hel, hjoin⟩ :=
          decList_encList t (leVal (bs.take 8)) (bs.drop 8) l r hd
        have hlen8 : (bs.take 8).length = 8 := by
          rw [List.length_take]
          omega
        refine ⟨natLE 8 (lenVL l) ++ joinL bss, ?_, ?_⟩
        · rw [hn, natLE_leVal 8 (bs.take 8) hlen8 h1.2, ← hr, List.append_assoc, ← hjoin,
            List.take_append_drop]
        · rw [← hv]
          simp only [encA, hel]
          have hlt : lenVL l < 256 ^ 8 := by
            rw [hn]
            exact leVal_lt 8 (bs.take 8) hlen8 h1.2
          rw [if_pos hlt]
    · rw [if_neg h1] at h
      exact Option.noConfusion h
  | .setTy t, bs, v, rest, h => by
    simp only [decA] at h
    by_cases h1 : 8 ≤ bs.length ∧ bytesOk (bs.take 8) = true
    · rw [if_pos h1] at h
      cases hd : decSetList t (leVal (bs.take 8)) none (bs.drop 8) with
      | none => rw [hd] at h; exact Option.noConfusion h
      | some p =>
        rw [hd] at h
        obtain ⟨l, r⟩ := p
        have h2 : some (AuxVal.vList l, r) = some (v, rest) := h
        have hp := Option.some.inj h2
        rw [Prod.mk.injEq] at hp
        obtain ⟨hv, hr⟩ := hp
        obtain ⟨hn, bss, hel, hchain, hjoin⟩ :=
          decSetList_encSetList t (leVal (bs.take 8)) none (bs.drop 8) l r hd
        have hlen8 : (bs.take 8).length = 8 := by
          rw [List.length_take]
          omega
        refine ⟨natLE 8 (lenVL l) ++ joinL bss, ?_, ?_⟩
        · rw [hn, natLE_leVal 8 (bs.take 8) hlen8 h1.2, ← hr, List.append_assoc, ← hjoin,
            List.take_append_drop]
        · rw [← hv]
          simp only [encA, hel]
          have hlt : lenVL l < 256 ^ 8 := by
            rw [hn]
            exact leVal_lt 8 (bs.take 8) hlen8 h1.2
          rw [if_pos ⟨hlt, hchain⟩]
    · rw [if_neg h1] at h
      exact Option.noConfusion h
  | .mapTy kt vt, bs, v, rest, h => by
    simp only [decA] at h
    by_cases h1 : 8 ≤ bs.length ∧ bytesOk (bs.take 8) = true
    · rw [if_pos h1] at h
      cases hd : decPairs kt vt (leVal (bs.take 8)) none (bs.drop 8) with
      | none => rw [hd] at h; exact Option.noConfusion h
      | some p =>
        rw [hd] at h
        obtain ⟨ps, r⟩ := p
        have h2 : some (AuxVal.vMap ps, r) = some (v, rest) := h
        have hp := Option.some.inj h2
        rw [Prod.mk.injEq] at hp
        obtain ⟨hv, hr⟩ := hp
        obtain ⟨hn, kvs, hep, hchain, hjoin⟩ :=
          decPairs_encPairs kt vt (leVal (bs.take 8)) none (bs.drop 8) ps r hd
        have hlen8 : (bs.take 8).length = 8 := by
          rw [List.length_take]
          omega
        refine ⟨natLE 8 (lenPL ps) ++ joinKV kvs, ?_, ?_⟩
        · rw [hn, natLE_leVal 8 (bs.take 8) hlen8 h1.2, ← hr, List.append_assoc, ← hjoin,
            List.take_append_drop]
        · rw [← hv]
          simp only [encA, hep]
          have hlt : lenPL ps < 256 ^ 8 := by
            rw [hn]
            exact leVal_lt 8 (bs.take 8) hlen8 h1.2
          rw [if_pos ⟨hlt, hchain⟩]
    · rw [if_neg h1] at h
      exact Option.noConfusion h
  | .tupleTy ts, bs, v, rest, h => by
    simp only [decA] at h
    cases hd : decFields ts bs with
    | none => rw [hd] at h; exact Option.noConfusion h
    | some p =>
      rw [hd] at h
      obtain ⟨l, r⟩ := p
      have h2 : some (AuxVal.vList l, r) = some (v, rest) := h
      have hp := Option.some.inj h2
      rw [Prod.mk.injEq] at hp
      obtain ⟨hv, hr⟩ := hp
      obtain ⟨front, hsplit, he⟩ := decFields_encFields ts bs l r hd
      refine ⟨front, ?_, ?_⟩
      · rw [hsplit, hr]
      · rw [← hv]
        simp only [encA]
        exact he
  | .variantTy ts, bs, v, rest, h => by
    simp only [decA] at h
    by_cases h1 : 8 ≤ bs.length ∧ bytesOk (bs.take 8) = true
    · rw [if_pos h1] at h
      split at h
      · rename_i t0 heq
        cases hd : decA t0 (bs.drop 8) with
        | none => rw [hd] at h; exact Option.noConfusion h
        | some p =>
          rw [hd] at h
          obtain ⟨v0, r⟩ := p
          have h2 : some (AuxVal.vVariant (leVal (bs.take 8)) v0, r) = some (v, rest) := h
          have hp := Option.some.inj h2
          rw [Prod.mk.injEq] at hp
          obtain ⟨hv, hr⟩ := hp
          obtain ⟨f0, hsplit, he0⟩ := decA_encA t0 (bs.drop 8) v0 r hd
          have hlen8 : (bs.take 8).length = 8 := by
            rw [List.length_take]
            omega
          refine ⟨natLE 8 (leVal (bs.take 8)) ++ f0, ?_, ?_⟩
          · rw [natLE_leVal 8 (bs.take 8) hlen8 h1.2, ← hr, List.append_assoc, ← hsplit,
              List.take_append_drop]
          · rw [← hv]
            simp only [encA, heq, he0]
            rw [if_pos (leVal_lt 8 (bs.take 8) hlen8 h1.2)]
      · exact Option.noConfusion h
    · rw [if_neg h1] at h
      exact Option.noConfusion h

termination_by t bs v rest h => (measA t, 0)
decreasing_by
  all_goals simp_wf
  all_goals try simp only [measA, measL]
  all_goals first
    | (apply Prod.Lex.right
       omega)
    | (apply Prod.Lex.left
       first
        | omega
        | exact lt_add_of_pos_right _ (measA_pos _)
        | exact lt_add_of_pos_right _ (measL_pos _)
        | exact lt_add_of_pos_left _ (measA_pos _)
        | exact Nat.lt_succ_of_lt (nthTy_measA _ _ _ (by assumption)))

/-- Direction 2 for sequences: a successful counted decode recovers
the element count and per-element encodings of the decoded list. -/
theorem decList_encList : ∀ (t : AuxTy) (n : Nat) (bs : List Nat) (l : AuxValList)
    (rest : List Nat), decList t n bs = some (l, rest) →
    lenVL l = n ∧ ∃ bss, encList t l = some bss ∧ bs = joinL bss ++ rest
  | t, 0, bs, l, rest, h => by
    simp only [decList] at h
    have hp := Option.some.inj h
    rw [Prod.mk.injEq] at hp
    refine ⟨?_, [], ?_, ?_⟩
    · rw [← hp.1]
      rfl
    · rw [← hp.1]
      rfl
    · rw [hp.2]
      rfl
  | t, n + 1, bs, l, rest, h => by
    simp only [decList] at h
    cases hd : decA t bs with
    | none => rw [hd] at h; exact Option.noConfusion h
    | some p =>
      rw [hd] at h
      obtain ⟨v, r1⟩ := p
      have h2 : (match decList t n r1 with
        | some (vs, rest2) => some (AuxValList.cons v vs, rest2)
        | none => none) = some (l, rest) := h
      cases hd2 : decList t n r1 with
      | none => rw [hd2] at h2; exact Option.noConfusion h2
      | some p2 =>
        rw [hd2] at h2
        obtain ⟨vs, r2⟩ := p2
        have h3 := Option.some.inj h2
        rw [Prod.mk.injEq] at h3
        obtain ⟨hl, hr⟩ := h3
        obtain ⟨f0, hsplit, he0⟩ := decA_encA t bs v r1 hd
        obtain ⟨hn, bss, hel, hjoin⟩ := decList_encList t n r1 vs r2 hd2
        refine ⟨?_, f0 :: bss, ?_, ?_⟩
        · rw [← hl]
          simp only [lenVL]
          omega
        · rw [← hl]
          simp only [encList, he0, hel]
        · rw [hsplit, hjoin, ← hr]
          simp only [joinL, List.append_assoc]

termination_by t n bs l rest h => (measA t, n + 1)
decreasing_by
  all_goals simp_wf
  all_goals try simp only [measA, measL]
  all_goals first
    | (apply Prod.Lex.right
       omega)
    | (apply Prod.Lex.left
       first
        | omega
        | exact lt_add_of_pos_right _ (measA_pos _)
        | exact lt_add_of_pos_right _ (measL_pos _)
        | exact lt_add_of_pos_left _ (measA_pos _)
        | exact Nat.lt_succ_of_lt (nthTy_measA _ _ _ (by assumption)))

/-- Direction 2 for sets: a successful chained decode additionally
shows the element encodings ascend strictly after the predecessor. -/
theorem decSetList_encSetList : ∀ (t : AuxTy) (n : Nat) (prev : Option (List Nat))
    (bs : List Nat) (l : AuxValList) (rest : List Nat),
    decSetList t n prev bs = some (l, rest) →
    lenVL l = n ∧ ∃ bss, encList t l = some bss ∧ chainAsc prev bss = true ∧
      bs = joinL bss ++ rest
  | t, 0, prev, bs, l, rest, h => by
    simp only [decSetList] at h
    have hp := Option.some.inj h
    rw [Prod.mk.injEq] at hp
    refine ⟨?_, [], ?_, ?_, ?_⟩
    · rw [← hp.1]
      rfl
    · rw [← hp.1]
      rfl
    · rfl
    · rw [hp.2]
      rfl
  | t, n + 1, prev, bs, l, rest, h => by
    simp only [decSetList] at h
    cases hd : decA t bs with
    | none => rw [hd] at h; exact Option.noConfusion h
    | some p =>
      rw [hd] at h
      obtain ⟨v, r1⟩ := p
      have h2 : (match encA t v with
        | some seg =>
          if ascOk prev seg = true then
            match decSetList t n (some seg) r1 with
            | some (vs, rest2) => some (AuxValList.cons v vs, rest2)
            | none => none
          else none
        | none => none) = some (l, rest) := h
      cases he : encA t v with
      | none => rw [he] at h2; exact Option.noConfusion h2
      | some seg =>
        rw [he] at h2
        have h3 : (if ascOk prev seg = true then
            match decSetList t n (some seg) r1 with
            | some (vs, rest2) => some (AuxValList.cons v vs, rest2)
            | none => none
          else none) = some (l, rest) := h2
        by_cases hasc : ascOk prev seg = true
        · rw [if_pos hasc] at h3
          cases hd2 : decSetList t n (some seg) r1 with
          | none => rw [hd2] at h3; exact Option.noConfusion h3
          | some p2 =>
            rw [hd2] at h3
            obtain ⟨vs, r2⟩ := p2
            have h4 := Option.some.inj h3
            rw [Prod.mk.injEq] at h4
            obtain ⟨hl, hr⟩ := h4
            obtain ⟨f0, hsplit, he0⟩ := decA_encA t bs v r1 hd
            have hfs : f0 = seg := Option.some.inj (he0.symm.trans he)
            obtain ⟨hn, bss, hel, hchain, hjoin⟩ :=
              decSetList_encSetList t n (some seg) r1 vs r2 hd2
            refine ⟨?_, seg :: bss, ?_, ?_, ?_⟩
            · rw [← hl]
              simp only [lenVL]
              omega
            · rw [← hl]
              rw [hfs] at he0
              simp only [encList, he0, hel]
            · simp only [chainAsc, hasc, hchain, Bool.and_self]
            · rw [hsplit, hfs, hjoin, ← hr]
              simp only [joinL, List.append_assoc]
        · rw [if_neg hasc] at h3
          exact Option.noConfusion h3

termination_by t n prev bs l rest h => (measA t, n + 1)
decreasing_by
  all_goals simp_wf
  all_goals try simp only [measA, measL]
  all_goals first
    | (apply Prod.Lex.right
       omega)
    | (apply Prod.Lex.left
       first
        | omega
        | exact lt_add_of_pos_right _ (measA_pos _)
        | exact lt_add_of_pos_right _ (measL_pos _)
        | exact lt_add_of_pos_left _ (measA_pos _)
        | exact Nat.lt_succ_of_lt (nthTy_measA _ _ _ (by assumption)))

/-- Direction 2 for mappings: a successful chained decode recovers the
pair encodings, with strictly ascending encoded keys. -/
theorem decPairs_encPairs : ∀ (kt vt : AuxTy) (n : Nat) (prev : Option (List Nat))
    (bs : List Nat) (ps : AuxPairList) (rest : List Nat),
    decPairs kt vt n prev bs = some (ps, rest) →
    lenPL ps = n ∧ ∃ kvs, encPairs kt vt ps = some kvs ∧
      chainAsc prev (kvs.map Prod.fst) = true ∧ bs = joinKV kvs ++ rest
  | kt, vt, 0, prev, bs, ps, rest, h => by
    simp only [decPairs] at h
    have hp := Option.some.inj h
    rw [Prod.mk.injEq] at hp
    refine ⟨?_, [], ?_, ?_, ?_⟩
    · rw [← hp.1]
      rfl
    · rw [← hp.1]
      rfl
    · rfl
    · rw [hp.2]
      rfl
  | kt, vt, n + 1, prev, bs, ps, rest, h => by
    simp only [decPairs] at h
    cases hd : decA kt bs with
    | none => rw [hd] at h; exact Option.noConfusion h
    | some p =>
      rw [hd] at h
      obtain ⟨k, r1⟩ := p
      have h2 : (match encA kt k with
        | some kseg =>
          if ascOk prev kseg = true then
            match decA vt r1 with
            | some (v, r2) =>
              match decPairs kt vt n (some kseg) r2 with
              | some (ps0, r3) => some (AuxPairList.cons k v ps0, r3)
              | none => none
            | none => none
          else none
        | none => none) = some (ps, rest) := h
      cases he : encA kt k with
      | none => rw [he] at h2; exact Option.noConfusion h2
      | some kseg =>
        rw [he] at h2
        have h3 : (if ascOk prev kseg = true then
            match decA vt r1 with
            | some (v, r2) =>
              match decPairs kt vt n (some kseg) r2 with
              | some (ps0, r3) => some (AuxPairList.cons k v ps0, r3)
              | none => none
            | none => none
          else none) = some (ps, rest) := h2
        by_cases hasc : ascOk prev kseg = true
        · rw [if_pos hasc] at h3
          cases hd2 : decA vt r1 with
          | none => rw [hd2] at h3; exact Option.noConfusion h3
          | some p2 =>
            rw [hd2] at h3
            obtain ⟨v, r2⟩ := p2
            have h4 : (match decPairs kt vt n (some kseg) r2 with
              | some (ps0, r3) => some (AuxPairList.cons k v ps0, r3)
              | none => none) = some (ps, rest) := h3
            cases hd3 : decPairs kt vt n (some kseg) r2 with
            | none => rw [hd3] at h4; exact Option.noConfusion h4
            | some p3 =>
              rw [hd3] at h4
              obtain ⟨ps0, r3⟩ := p3
              have h5 := Option.some.inj h4
              rw [Prod.mk.injEq] at h5
              obtain ⟨hl, hr⟩ := h5
              obtain ⟨fk, hsplitk, hek⟩ := decA_encA kt bs k r1 hd
              have hfs : fk = kseg := Option.some.inj (hek.symm.trans he)
              obtain ⟨fv, hsplitv, hev⟩ := decA_encA vt r1 v r2 hd2
              obtain ⟨hn, kvs, hep, hchain, hjoin⟩ :=
                decPairs_encPairs kt vt n (some kseg) r2 ps0 r3 hd3
              refine ⟨?_, (kseg, fv) :: kvs, ?_, ?_, ?_⟩
              · rw [← hl]
                simp only [lenPL]
                omega
              · rw [← hl]
                rw [hfs] at hek
                simp only [encPairs, hek, hev, hep]
              · simp only [List.map_cons, chainAsc, hasc, hchain, Bool.and_self]
              · rw [hsplitk, hfs, hsplitv, hjoin, ← hr]
                simp only [joinKV, List.append_assoc]
        · rw [if_neg hasc] at h3
          exact Option.noConfusion h3

termination_by kt vt n prev bs ps rest h => (measA kt + measA vt, n + 1)
decreasing_by
  all_goals simp_wf
  all_goals try simp only [measA, measL]
  all_goals first
    | (apply Prod.Lex.right
       omega)
    | (apply Prod.Lex.left
       first
        | omega
        | exact lt_add_of_pos_right _ (measA_pos _)
        | exact lt_add_of_pos_right _ (measL_pos _)
        | exact lt_add_of_pos_left _ (measA_pos _)
        | exact Nat.lt_succ_of_lt (nthTy_measA _ _ _ (by assumption)))

/-- Direction 2 for tuples: a successful field-by-field decode
recovers the concatenated field encodings. -/
theorem decFields_encFields : ∀ (ts : AuxTyList) (bs : List Nat) (vs : AuxValList)
    (rest : List Nat), decFields ts bs = some (vs, rest) →
    ∃ front, bs = front ++ rest ∧ encFields ts vs = some front
  | .nil, bs, vs, rest, h => by
    simp only [decFields] at h
    have hp := Option.some.inj h
    rw [Prod.mk.injEq] at hp
    refine ⟨[], ?_, ?_⟩
    · rw [hp.2]
      rfl
    · rw [← hp.1]
      rfl
  | .cons t ts, bs, vs, rest, h => by
    simp only [decFields] at h
    cases hd : decA t bs with
    | none => rw [hd] at h; exact Option.noConfusion h
    | some p =>
      rw [hd] at h
      obtain ⟨v, r1⟩ := p
      have h2 : (match decFields ts r1 with
        | some (vs0, rest2) => some (AuxValList.cons v vs0, rest2)
        | none => none) = some (vs, rest) := h
      cases hd2 : decFields ts r1 with
      | none => rw [hd2] at h2; exact Option.noConfusion h2
      | some p2 =>
        rw [hd2] at h2
        obtain ⟨vs0, r2⟩ := p2
        have h3 := Option.some.inj h2
        rw [Prod.mk.injEq] at h3
        obtain ⟨hl, hr⟩ := h3
        obtain ⟨f0, hsplit, he0⟩ := decA_encA t bs v r1 hd
        obtain ⟨f1, hsplit2, he1⟩ := decFields_encFields ts r1 vs0 r2 hd2
        refine ⟨f0 ++ f1, ?_, ?_⟩
        · rw [hsplit, hsplit2, ← hr, List.append_assoc]
        · rw [← hl]
          simp only [encFields, he0, he1]
termination_by ts bs vs rest h => (measL ts, 0)
decreasing_by
  all_goals simp_wf
  all_goals try simp only [measA, measL]
  all_goals first
    | (apply Prod.Lex.right
       omega)
    | (apply Prod.Lex.left
       first
        | omega
        | exact lt_add_of_pos_right _ (measA_pos _)
        | exact lt_add_of_pos_right _ (measL_pos _)
        | exact lt_add_of_pos_left _ (measA_pos _)
        | exact Nat.lt_succ_of_lt (nthTy_measA _ _ _ (by assumption)))

end


/-- C2: AuxData encode/decode idempotence.  For every AuxData type
expression t and every value v of type t (one the encoder accepts),
decoding the encoding of v consumes the whole payload and yields v
back; and every byte sequence that decodes successfully and completely
under t re-encodes to exactly those bytes. -/
theorem auxdata_codec_roundtrip (t : AuxTy) :
    (∀ v bs, encA t v = some bs → decA t bs = some (v, [])) ∧
    (∀ bs v, decA t bs = some (v, []) → encA t v = some bs) := by
  constructor
  · intro v bs h
    have hdec := encA_decA t v bs h []
    rwa [List.append_nil] at hdec
  · intro bs v h
    obtain ⟨front, hsplit, he⟩ := decA_encA t bs v [] h
    rw [List.append_nil] at hsplit
    rw [← hsplit] at he
    exact he

theorem auxdata_codec_roundtrip_witness :
    decA (.seqTy .uint16Ty) [1, 0, 0, 0, 0, 0, 0, 0, 2, 1] =
      some (.vList (.cons (.vUInt 258) .nil), []) ∧
    encA (.seqTy .uint16Ty) (.vList (.cons (.vUInt 258) .nil)) =
      some [1, 0, 0, 0, 0, 0, 0, 0, 2, 1] := by
  have henc : encA (.seqTy .uint16Ty) (.vList (.cons (.vUInt 258) .nil)) =
      some [1, 0, 0, 0, 0, 0, 0, 0, 2, 1] := rfl
  have hdec := (auxdata_codec_roundtrip (.seqTy .uint16Ty)).1
    (.vList (.cons (.vUInt 258) .nil)) [1, 0, 0, 0, 0, 0, 0, 0, 2, 1] henc
  exact ⟨hdec, (auxdata_codec_roundtrip (.seqTy .uint16Ty)).2
    [1, 0, 0, 0, 0, 0, 0, 0, 2, 1] (.vList (.cons (.vUInt 258) .nil)) hdec⟩

end Gtirb
